import Mathlib

/-!
Verification development for the SaltyBets core betting subsystem.

The definitions below are a shallow embedding of the betting ledger,
settlement, payout, and match-lifecycle code:

* `place_bet`, `cancel_bet` — the two atomic Redis Lua scripts
  (`src/packages/core/src/scripts/redis/place_bet.lua`,
  `cancel_bet.lua`), acting on an explicit `LedgerState`.
* `isValidBetAmount`, `placeBet`, `cancelBet`, `finalizeBets`,
  `finalizationTimerCallback` — `BetService`
  (`src/packages/core/src/services/BetService.ts`).
* `calculateAndDistributePayouts` — `PayoutService`
  (`src/packages/core/src/services/PayoutService.ts`).
* `getWinnerColor`, `compareMatchHashes`, `endMatch` — `MatchResolver`
  and `SaltyBoyService`.

Monetary amounts are embedded as rationals (`ℚ`). The JavaScript sources
compute with IEEE-754 doubles; the one comparison whose outcome depends
on that (`isValidBetAmount`) is embedded with the exact binary64 values
of its constants and the exact remainder, which reproduces the double
computation bit-for-bit on double inputs (see the definition site).
-/

namespace SaltyBets

/-- The two fighter colors (`src/packages/core/src/types/FighterColor.ts`). -/
inductive FighterColor
  | red
  | blue
deriving DecidableEq, Repr

/-- One per-user hash stored at `bet:active:user:<userId>` (fields
`amount` and `color`, as written by `place_bet.lua`). -/
structure LedgerEntry where
  amount : ℚ
  color : FighterColor
deriving DecidableEq, Repr

/-- The ephemeral Redis ledger: the per-user bet hashes plus the two
side-aggregate counters `bet:active:total:red` / `bet:active:total:blue`.
A missing counter key reads as 0 (`GET … or '0'`, `INCRBYFLOAT` from 0),
so the counters are embedded as plain rationals. -/
structure LedgerState where
  entries : List (String × LedgerEntry)
  redTotal : ℚ
  blueTotal : ℚ
deriving DecidableEq, Repr

/-- The ledger before any bet has been placed. -/
def LedgerState.empty : LedgerState := ⟨[], 0, 0⟩

/-- `HGETALL bet:active:user:<uid>`: the stored entry, if any. -/
def findEntry (s : LedgerState) (uid : String) : Option LedgerEntry :=
  (s.entries.find? (fun p => p.1 == uid)).map Prod.snd

/-- `HSET bet:active:user:<uid> amount … color …`: store (or overwrite)
the user's hash. -/
def setEntry (s : LedgerState) (uid : String) (e : LedgerEntry) : LedgerState :=
  if s.entries.any (fun p => p.1 == uid) then
    { s with entries := s.entries.map (fun p => if p.1 == uid then (uid, e) else p) }
  else
    { s with entries := s.entries ++ [(uid, e)] }

/-- `DEL bet:active:user:<uid>`. -/
def delEntry (s : LedgerState) (uid : String) : LedgerState :=
  { s with entries := s.entries.filter (fun p => !(p.1 == uid)) }

/-- Read one side-aggregate counter. -/
def getTotal (s : LedgerState) (c : FighterColor) : ℚ :=
  match c with
  | .red => s.redTotal
  | .blue => s.blueTotal

/-- Overwrite one side-aggregate counter (`SET totalKey …`). -/
def setTotal (s : LedgerState) (c : FighterColor) (v : ℚ) : LedgerState :=
  match c with
  | .red => { s with redTotal := v }
  | .blue => { s with blueTotal := v }

/-- `place_bet.lua`: read the caller's current bet amount (0 if the hash
is absent), add the new amount, write back amount and color (the color is
overwritten unconditionally), and add the amount to the side total that
was read at the start of the script. -/
def place_bet (s : LedgerState) (uid : String) (amount : ℚ)
    (fighterColor : FighterColor) : LedgerState :=
  let currentBetAmount : ℚ := (findEntry s uid).elim 0 (fun e => e.amount)
  let newBetAmount := currentBetAmount + amount
  let newTotal := getTotal s fighterColor + amount
  let s1 := setEntry s uid ⟨newBetAmount, fighterColor⟩
  setTotal s1 fighterColor newTotal

/-- The two error tokens returned by `cancel_bet.lua`. -/
inductive CancelErr
  | NO_BET
  | INSUFFICIENT_BET
deriving DecidableEq, Repr

/-- `cancel_bet.lua`: fail `NO_BET` if the hash is absent; fail
`INSUFFICIENT_BET` if the stored amount is smaller than the requested
one; otherwise subtract, delete the hash exactly when the result is 0,
and `INCRBYFLOAT` the total of the entry's recorded color by `-amount`. -/
def cancel_bet (s : LedgerState) (uid : String) (amount : ℚ) :
    Except CancelErr LedgerState :=
  match findEntry s uid with
  | none => .error .NO_BET
  | some e =>
    if e.amount < amount then .error .INSUFFICIENT_BET
    else
      let newBetAmount := e.amount - amount
      let s1 := if newBetAmount = 0 then delEntry s uid
                else setEntry s uid ⟨newBetAmount, e.color⟩
      .ok (setTotal s1 e.color (getTotal s1 e.color + (-amount)))

/-- One invocation of an atomic ledger script. -/
inductive LedgerOp
  | place (uid : String) (amount : ℚ) (color : FighterColor)
  | cancel (uid : String) (amount : ℚ)
deriving DecidableEq, Repr

/-- Execute one script invocation; a failed `cancel_bet` leaves the
ledger untouched (the script returns its error before any write). -/
def stepLedger (s : LedgerState) : LedgerOp → LedgerState
  | .place uid a c => place_bet s uid a c
  | .cancel uid a =>
    match cancel_bet s uid a with
    | .ok s1 => s1
    | .error _ => s

/-- Run a sequence of script invocations from the empty ledger. -/
def runLedger (ops : List LedgerOp) : LedgerState :=
  ops.foldl stepLedger LedgerState.empty

/-- Sum of all currently stored per-user entry amounts. -/
def entriesSum (s : LedgerState) : ℚ :=
  (s.entries.map (fun p => p.2.amount)).sum

/-- Sum of the stored entry amounts whose recorded color is `c`. -/
def sumOnSide (s : LedgerState) (c : FighterColor) : ℚ :=
  ((s.entries.filter (fun p => p.2.color == c)).map (fun p => p.2.amount)).sum

/-! ### Association-list lemmas for the ledger representation -/

/-- Replacing the entry of a key that occurs nowhere is the identity. -/
lemma map_replace_eq_self (l : List (String × LedgerEntry)) (uid : String)
    (e : LedgerEntry) (h : ∀ q ∈ l, (q.1 == uid) = false) :
    l.map (fun p => if p.1 == uid then (uid, e) else p) = l := by
  induction l with
  | nil => rfl
  | cons p t ih =>
    have hp := h p (by simp)
    simp only [List.map_cons, hp]
    simp only [Bool.false_eq_true, if_false]
    rw [ih (fun q hq => h q (List.mem_cons_of_mem _ hq))]

/-- Filtering out a key that occurs nowhere is the identity. -/
lemma filter_ne_eq_self (l : List (String × LedgerEntry)) (uid : String)
    (h : ∀ q ∈ l, (q.1 == uid) = false) :
    l.filter (fun p => !(p.1 == uid)) = l := by
  induction l with
  | nil => rfl
  | cons p t ih =>
    have hp := h p (by simp)
    simp only [List.filter_cons, hp, Bool.not_false, if_true]
    rw [ih (fun q hq => h q (List.mem_cons_of_mem _ hq))]

/-- Replacing a key's entry does not change the key list. -/
lemma keys_map_replace (l : List (String × LedgerEntry)) (uid : String)
    (e : LedgerEntry) :
    (l.map (fun p => if p.1 == uid then (uid, e) else p)).map Prod.fst
      = l.map Prod.fst := by
  induction l with
  | nil => rfl
  | cons p t ih =>
    by_cases hp : (p.1 == uid) = true
    · have huid : p.1 = uid := by simpa using hp
      simp only [List.map_cons, if_pos hp, ih]
      simp [huid]
    · simp only [List.map_cons, if_neg hp, ih]

/-- When keys are distinct and `uid` is found at `p0`, replacing changes
any `f`-weighted sum by exactly `f (uid, e) - f p0`. -/
lemma sum_map_replace (f : String × LedgerEntry → ℚ)
    (l : List (String × LedgerEntry)) (uid : String) (e : LedgerEntry)
    (p0 : String × LedgerEntry) (hnd : (l.map Prod.fst).Nodup)
    (hf : l.find? (fun p => p.1 == uid) = some p0) :
    ((l.map (fun p => if p.1 == uid then (uid, e) else p)).map f).sum
      = (l.map f).sum - f p0 + f (uid, e) := by
  induction l with
  | nil => simp at hf
  | cons p t ih =>
    have hnd2 : (t.map Prod.fst).Nodup ∧ p.1 ∉ t.map Prod.fst := by
      rw [List.map_cons, List.nodup_cons] at hnd
      exact ⟨hnd.2, hnd.1⟩
    by_cases hp : (p.1 == uid) = true
    · simp only [List.find?_cons, hp] at hf
      have hp0 : p0 = p := by injection hf with h; exact h.symm
      have huid : p.1 = uid := by simpa using hp
      have htail : ∀ q ∈ t, (q.1 == uid) = false := by
        intro q hq
        have h1 : q.1 ∈ t.map Prod.fst := List.mem_map_of_mem Prod.fst hq
        have h2 : q.1 ≠ uid := fun hqe => hnd2.2 (by rw [huid, ← hqe]; exact h1)
        simpa using h2
      simp only [List.map_cons, if_pos hp]
      rw [map_replace_eq_self t uid e htail]
      simp only [List.map_cons, List.sum_cons, hp0]
      ring
    · have hp2 : (p.1 == uid) = false := by simpa using hp
      simp only [List.find?_cons, hp2] at hf
      simp only [List.map_cons, if_neg hp, List.sum_cons]
      rw [ih hnd2.1 hf]
      ring

/-- When keys are distinct and `uid` is found at `p0`, deleting the key
removes exactly `f p0` from any `f`-weighted sum. -/
lemma sum_filter_del (f : String × LedgerEntry → ℚ)
    (l : List (String × LedgerEntry)) (uid : String)
    (p0 : String × LedgerEntry) (hnd : (l.map Prod.fst).Nodup)
    (hf : l.find? (fun p => p.1 == uid) = some p0) :
    ((l.filter (fun p => !(p.1 == uid))).map f).sum = (l.map f).sum - f p0 := by
  induction l with
  | nil => simp at hf
  | cons p t ih =>
    have hnd2 : (t.map Prod.fst).Nodup ∧ p.1 ∉ t.map Prod.fst := by
      rw [List.map_cons, List.nodup_cons] at hnd
      exact ⟨hnd.2, hnd.1⟩
    by_cases hp : (p.1 == uid) = true
    · simp only [List.find?_cons, hp] at hf
      have hp0 : p0 = p := by injection hf with h; exact h.symm
      have huid : p.1 = uid := by simpa using hp
      have htail : ∀ q ∈ t, (q.1 == uid) = false := by
        intro q hq
        have h1 : q.1 ∈ t.map Prod.fst := List.mem_map_of_mem Prod.fst hq
        have h2 : q.1 ≠ uid := fun hqe => hnd2.2 (by rw [huid, ← hqe]; exact h1)
        simpa using h2
      simp only [List.filter_cons, hp, Bool.not_true, Bool.false_eq_true, if_false]
      rw [filter_ne_eq_self t uid htail]
      simp only [List.map_cons, List.sum_cons, hp0]
      ring
    · have hp2 : (p.1 == uid) = false := by simpa using hp
      simp only [List.find?_cons, hp2] at hf
      simp only [List.filter_cons, hp2, Bool.not_false, if_true, List.map_cons,
        List.sum_cons]
      rw [ih hnd2.1 hf]
      ring

/-- A filter–map sum equals the sum of an `if`-guarded weight. -/
lemma sum_filter_eq_sum_ite (g : String × LedgerEntry → ℚ)
    (q : String × LedgerEntry → Bool) (l : List (String × LedgerEntry)) :
    ((l.filter q).map g).sum = (l.map (fun p => if q p then g p else 0)).sum := by
  induction l with
  | nil => rfl
  | cons p t ih =>
    by_cases hq : q p = true
    · simp [List.filter_cons, hq, ih]
    · simp [List.filter_cons, hq, ih]

/-! ### State-level lemmas -/

/-- Neither `setEntry` branch touches the side totals. -/
lemma getTotal_setEntry (s : LedgerState) (uid : String) (e : LedgerEntry)
    (c : FighterColor) : getTotal (setEntry s uid e) c = getTotal s c := by
  unfold setEntry
  split <;> cases c <;> rfl

lemma getTotal_delEntry (s : LedgerState) (uid : String) (c : FighterColor) :
    getTotal (delEntry s uid) c = getTotal s c := by
  cases c <;> rfl

lemma getTotal_setTotal_self (s : LedgerState) (c : FighterColor) (v : ℚ) :
    getTotal (setTotal s c v) c = v := by
  cases c <;> rfl

lemma getTotal_setTotal_ne (s : LedgerState) (c c' : FighterColor) (v : ℚ)
    (h : c' ≠ c) : getTotal (setTotal s c v) c' = getTotal s c' := by
  cases c <;> cases c' <;> first | rfl | exact absurd rfl h

lemma entries_setTotal (s : LedgerState) (c : FighterColor) (v : ℚ) :
    (setTotal s c v).entries = s.entries := by
  cases c <;> rfl

lemma redTotal_setEntry (s : LedgerState) (uid : String) (e : LedgerEntry) :
    (setEntry s uid e).redTotal = s.redTotal := by
  unfold setEntry; split <;> rfl

lemma blueTotal_setEntry (s : LedgerState) (uid : String) (e : LedgerEntry) :
    (setEntry s uid e).blueTotal = s.blueTotal := by
  unfold setEntry; split <;> rfl

lemma totalsSum_setTotal (s : LedgerState) (c : FighterColor) (v : ℚ) :
    (setTotal s c v).redTotal + (setTotal s c v).blueTotal
      = s.redTotal + s.blueTotal - getTotal s c + v := by
  cases c <;> simp [setTotal, getTotal] <;> ring

/-- Unpack a successful `findEntry` into its raw `find?` witness. -/
lemma findEntry_some_elim (s : LedgerState) (uid : String) (e : LedgerEntry)
    (h : findEntry s uid = some e) :
    ∃ p0, s.entries.find? (fun p => p.1 == uid) = some p0
      ∧ p0.1 = uid ∧ p0.2 = e := by
  unfold findEntry at h
  cases hfind : s.entries.find? (fun p => p.1 == uid) with
  | none => rw [hfind] at h; simp at h
  | some p0 =>
    rw [hfind] at h
    refine ⟨p0, rfl, ?_, by simpa using h⟩
    have := List.find?_some hfind
    simpa using this

lemma findEntry_none_elim (s : LedgerState) (uid : String)
    (h : findEntry s uid = none) :
    s.entries.any (fun p => p.1 == uid) = false := by
  unfold findEntry at h
  cases hfind : s.entries.find? (fun p => p.1 == uid) with
  | none =>
    rw [List.any_eq_false]
    intro p hp
    have := List.find?_eq_none.mp hfind p hp
    simpa using this
  | some p0 => rw [hfind] at h; simp at h

lemma any_of_find_some (l : List (String × LedgerEntry)) (uid : String)
    (p0 : String × LedgerEntry)
    (hf : l.find? (fun p => p.1 == uid) = some p0) :
    l.any (fun p => p.1 == uid) = true := by
  have hp := List.find?_some hf
  exact List.any_eq_true.mpr ⟨p0, List.mem_of_find?_eq_some hf, hp⟩

/-- Distinct ledger keys. -/
def GoodKeys (s : LedgerState) : Prop := (s.entries.map Prod.fst).Nodup

lemma goodKeys_empty : GoodKeys LedgerState.empty := List.nodup_nil

lemma goodKeys_setEntry (s : LedgerState) (uid : String) (e : LedgerEntry)
    (hnd : GoodKeys s) : GoodKeys (setEntry s uid e) := by
  unfold setEntry GoodKeys
  split
  · rw [keys_map_replace]; exact hnd
  · rename_i hany
    have hall : ∀ q ∈ s.entries, (q.1 == uid) = false := by
      intro q hq
      cases h : (q.1 == uid) with
      | false => rfl
      | true => exact absurd (List.any_eq_true.mpr ⟨q, hq, h⟩) hany
    have hnotmem : uid ∉ s.entries.map Prod.fst := by
      intro hmem
      obtain ⟨q, hq, hqu⟩ := List.mem_map.mp hmem
      have := hall q hq
      rw [hqu] at this
      simp at this
    simp only [List.map_append, List.map_cons, List.map_nil]
    exact List.Nodup.append hnd (List.nodup_singleton uid)
      (List.disjoint_singleton.mpr hnotmem)

lemma goodKeys_delEntry (s : LedgerState) (uid : String)
    (hnd : GoodKeys s) : GoodKeys (delEntry s uid) :=
  List.Nodup.sublist (List.Sublist.map Prod.fst (List.filter_sublist _)) hnd

lemma goodKeys_setTotal (s : LedgerState) (c : FighterColor) (v : ℚ)
    (hnd : GoodKeys s) : GoodKeys (setTotal s c v) := by
  cases c <;> exact hnd

lemma entriesSum_setTotal (s : LedgerState) (c : FighterColor) (v : ℚ) :
    entriesSum (setTotal s c v) = entriesSum s := by
  cases c <;> rfl

lemma entriesSum_setEntry_none (s : LedgerState) (uid : String)
    (e : LedgerEntry) (h : findEntry s uid = none) :
    entriesSum (setEntry s uid e) = entriesSum s + e.amount := by
  unfold setEntry
  rw [if_neg (by rw [findEntry_none_elim s uid h]; simp)]
  simp [entriesSum, List.map_append]

lemma entriesSum_setEntry_some (s : LedgerState) (uid : String)
    (e eOld : LedgerEntry) (hnd : GoodKeys s)
    (h : findEntry s uid = some eOld) :
    entriesSum (setEntry s uid e) = entriesSum s - eOld.amount + e.amount := by
  obtain ⟨p0, hfind, _, hsnd⟩ := findEntry_some_elim s uid eOld h
  unfold setEntry
  rw [if_pos (any_of_find_some _ _ _ hfind)]
  have := sum_map_replace (fun p => p.2.amount) s.entries uid e p0 hnd hfind
  simpa [entriesSum, hsnd] using this

lemma entriesSum_delEntry (s : LedgerState) (uid : String)
    (eOld : LedgerEntry) (hnd : GoodKeys s)
    (h : findEntry s uid = some eOld) :
    entriesSum (delEntry s uid) = entriesSum s - eOld.amount := by
  obtain ⟨p0, hfind, _, hsnd⟩ := findEntry_some_elim s uid eOld h
  have := sum_filter_del (fun p => p.2.amount) s.entries uid p0 hnd hfind
  simpa [entriesSum, delEntry, hsnd] using this

/-- The conservation property of §8 of the spec: the sum of the two side
totals equals the sum of the stored per-user amounts. -/
def ConservedSum (s : LedgerState) : Prop :=
  s.redTotal + s.blueTotal = entriesSum s

lemma conservedSum_place (s : LedgerState) (uid : String) (a : ℚ)
    (c : FighterColor) (hnd : GoodKeys s) (hc : ConservedSum s) :
    ConservedSum (place_bet s uid a c) := by
  unfold ConservedSum place_bet
  rw [totalsSum_setTotal, entriesSum_setTotal, getTotal_setEntry,
    redTotal_setEntry, blueTotal_setEntry]
  cases hfe : findEntry s uid with
  | none =>
    rw [entriesSum_setEntry_none s uid _ hfe]
    unfold ConservedSum at hc
    simp only [hfe, Option.elim]
    rw [hc]
    ring
  | some e =>
    rw [entriesSum_setEntry_some s uid _ e hnd hfe]
    unfold ConservedSum at hc
    simp only [hfe, Option.elim]
    rw [hc]
    ring

lemma conservedSum_cancel (s s1 : LedgerState) (uid : String) (a : ℚ)
    (hnd : GoodKeys s) (hc : ConservedSum s)
    (hok : cancel_bet s uid a = .ok s1) : ConservedSum s1 := by
  cases hfe : findEntry s uid with
  | none =>
    simp only [cancel_bet, hfe] at hok
    exact Except.noConfusion hok
  | some e =>
    simp only [cancel_bet, hfe] at hok
    by_cases hlt : e.amount < a
    · rw [if_pos hlt] at hok
      exact Except.noConfusion hok
    · rw [if_neg hlt] at hok
      by_cases hz : e.amount - a = 0
      · rw [if_pos hz] at hok
        injection hok with hok
        subst hok
        unfold ConservedSum
        rw [totalsSum_setTotal, entriesSum_setTotal, getTotal_delEntry,
          entriesSum_delEntry s uid e hnd hfe]
        unfold ConservedSum at hc
        have : a = e.amount := by linarith [sub_eq_zero.mp hz]
        cases e.color <;> simp [getTotal, delEntry] <;> linarith [hc]
      · rw [if_neg hz] at hok
        injection hok with hok
        subst hok
        unfold ConservedSum
        rw [totalsSum_setTotal, entriesSum_setTotal, getTotal_setEntry,
          redTotal_setEntry, blueTotal_setEntry,
          entriesSum_setEntry_some s uid _ e hnd hfe]
        unfold ConservedSum at hc
        cases e.color <;> simp [getTotal] <;> linarith [hc]

lemma goodKeys_step (s : LedgerState) (op : LedgerOp) (hnd : GoodKeys s) :
    GoodKeys (stepLedger s op) := by
  cases op with
  | place uid a c =>
    exact goodKeys_setTotal _ _ _ (goodKeys_setEntry _ _ _ hnd)
  | cancel uid a =>
    simp only [stepLedger]
    cases hres : cancel_bet s uid a with
    | error _ => exact hnd
    | ok s1 =>
      cases hfe : findEntry s uid with
      | none =>
        simp only [cancel_bet, hfe] at hres
        exact Except.noConfusion hres
      | some e =>
        simp only [cancel_bet, hfe] at hres
        by_cases hlt : e.amount < a
        · rw [if_pos hlt] at hres
          exact Except.noConfusion hres
        · rw [if_neg hlt] at hres
          by_cases hz : e.amount - a = 0
          · rw [if_pos hz] at hres
            injection hres with hres
            subst hres
            exact goodKeys_setTotal _ _ _ (goodKeys_delEntry _ _ hnd)
          · rw [if_neg hz] at hres
            injection hres with hres
            subst hres
            exact goodKeys_setTotal _ _ _ (goodKeys_setEntry _ _ _ hnd)

lemma conservedSum_step (s : LedgerState) (op : LedgerOp)
    (hnd : GoodKeys s) (hc : ConservedSum s) :
    ConservedSum (stepLedger s op) := by
  cases op with
  | place uid a c => exact conservedSum_place s uid a c hnd hc
  | cancel uid a =>
    simp only [stepLedger]
    cases hres : cancel_bet s uid a with
    | error _ => exact hc
    | ok s1 => exact conservedSum_cancel s s1 uid a hnd hc hres

lemma goodKeys_conserved_foldl (ops : List LedgerOp) :
    ∀ s, GoodKeys s → ConservedSum s →
      GoodKeys (ops.foldl stepLedger s) ∧ ConservedSum (ops.foldl stepLedger s) := by
  induction ops with
  | nil => intro s hnd hc; exact ⟨hnd, hc⟩
  | cons op rest ih =>
    intro s hnd hc
    exact ih (stepLedger s op) (goodKeys_step s op hnd)
      (conservedSum_step s op hnd hc)

/-! ### Per-side sums -/

/-- The contribution of one stored entry to side `c`. -/
def sideWeight (c : FighterColor) : String × LedgerEntry → ℚ :=
  fun p => if p.2.color == c then p.2.amount else 0

lemma sumOnSide_eq (s : LedgerState) (c : FighterColor) :
    sumOnSide s c = (s.entries.map (sideWeight c)).sum :=
  sum_filter_eq_sum_ite (fun p => p.2.amount) (fun p => p.2.color == c) s.entries

lemma sumOnSide_setTotal (s : LedgerState) (c c2 : FighterColor) (v : ℚ) :
    sumOnSide (setTotal s c v) c2 = sumOnSide s c2 := by
  cases c <;> rfl

lemma sumOnSide_setEntry_none (s : LedgerState) (uid : String)
    (e : LedgerEntry) (c : FighterColor) (h : findEntry s uid = none) :
    sumOnSide (setEntry s uid e) c
      = sumOnSide s c + (if e.color == c then e.amount else 0) := by
  have hany := findEntry_none_elim s uid h
  rw [sumOnSide_eq, sumOnSide_eq]
  unfold setEntry
  rw [if_neg (by rw [hany]; simp)]
  simp [sideWeight, List.map_append]

lemma sumOnSide_setEntry_some (s : LedgerState) (uid : String)
    (e eOld : LedgerEntry) (c : FighterColor) (hnd : GoodKeys s)
    (h : findEntry s uid = some eOld) :
    sumOnSide (setEntry s uid e) c
      = sumOnSide s c - (if eOld.color == c then eOld.amount else 0)
        + (if e.color == c then e.amount else 0) := by
  obtain ⟨p0, hfind, _, hsnd⟩ := findEntry_some_elim s uid eOld h
  rw [sumOnSide_eq, sumOnSide_eq]
  unfold setEntry
  rw [if_pos (any_of_find_some _ _ _ hfind)]
  have := sum_map_replace (sideWeight c) s.entries uid e p0 hnd hfind
  simpa [sideWeight, hsnd] using this

lemma sumOnSide_delEntry (s : LedgerState) (uid : String)
    (eOld : LedgerEntry) (c : FighterColor) (hnd : GoodKeys s)
    (h : findEntry s uid = some eOld) :
    sumOnSide (delEntry s uid) c
      = sumOnSide s c - (if eOld.color == c then eOld.amount else 0) := by
  obtain ⟨p0, hfind, _, hsnd⟩ := findEntry_some_elim s uid eOld h
  rw [sumOnSide_eq, sumOnSide_eq]
  have := sum_filter_del (sideWeight c) s.entries uid p0 hnd hfind
  simpa [sideWeight, delEntry, hsnd] using this

lemma mem_setEntry (s : LedgerState) (uid : String) (e : LedgerEntry)
    (q : String × LedgerEntry) (hq : q ∈ (setEntry s uid e).entries) :
    q ∈ s.entries ∨ q = (uid, e) := by
  unfold setEntry at hq
  split at hq
  · obtain ⟨p, hp, hpe⟩ := List.mem_map.mp hq
    by_cases hcond : (p.1 == uid) = true
    · right
      rw [if_pos hcond] at hpe
      exact hpe.symm
    · left
      rw [if_neg hcond] at hpe
      exact hpe ▸ hp
  · rcases List.mem_append.mp hq with h | h
    · exact Or.inl h
    · exact Or.inr (by simpa using h)

lemma mem_delEntry (s : LedgerState) (uid : String)
    (q : String × LedgerEntry) (hq : q ∈ (delEntry s uid).entries) :
    q ∈ s.entries :=
  List.mem_of_mem_filter hq

/-- The invariant behind §8's side-total properties: distinct keys,
nonnegative stored amounts, and each side total equal to the sum of the
entries recorded on that side. -/
def LedgerInv (s : LedgerState) : Prop :=
  GoodKeys s ∧ (∀ p ∈ s.entries, 0 ≤ p.2.amount)
    ∧ ∀ c, getTotal s c = sumOnSide s c

lemma ledgerInv_empty : LedgerInv LedgerState.empty := by
  refine ⟨goodKeys_empty, by simp [LedgerState.empty], ?_⟩
  intro c
  cases c <;> simp [getTotal, sumOnSide, LedgerState.empty]

lemma ledgerInv_place (s : LedgerState) (uid : String) (a : ℚ)
    (c : FighterColor) (ha : 0 < a)
    (hflip : ∀ e, findEntry s uid = some e → e.color = c)
    (hinv : LedgerInv s) : LedgerInv (place_bet s uid a c) := by
  obtain ⟨hnd, hpos, htot⟩ := hinv
  unfold place_bet
  refine ⟨goodKeys_setTotal _ _ _ (goodKeys_setEntry _ _ _ hnd), ?_, ?_⟩
  · intro p hp
    rw [entries_setTotal] at hp
    rcases mem_setEntry _ _ _ _ hp with h | h
    · exact hpos p h
    · subst h
      cases hfe : findEntry s uid with
      | none => simp [hfe]; linarith
      | some e =>
        obtain ⟨p0, hfind, _, hsnd⟩ := findEntry_some_elim s uid e hfe
        have := hpos p0 (List.mem_of_find?_eq_some hfind)
        simp [hfe]
        rw [hsnd] at this
        linarith
  · intro c2
    by_cases hc : c2 = c
    · subst hc
      rw [getTotal_setTotal_self, sumOnSide_setTotal]
      cases hfe : findEntry s uid with
      | none =>
        rw [sumOnSide_setEntry_none s uid _ _ hfe, htot c2]
        simp [hfe]
      | some e =>
        have hec : e.color = c2 := hflip e hfe
        rw [sumOnSide_setEntry_some s uid _ e _ hnd hfe, htot c2]
        simp [hfe, hec]
        ring
    · rw [getTotal_setTotal_ne _ _ _ _ hc, sumOnSide_setTotal,
        getTotal_setEntry]
      cases hfe : findEntry s uid with
      | none =>
        rw [sumOnSide_setEntry_none s uid _ _ hfe, htot c2]
        simp [show (c == c2) = false by simpa using fun h => hc h.symm]
      | some e =>
        have hec : e.color = c := hflip e hfe
        rw [sumOnSide_setEntry_some s uid _ e _ hnd hfe, htot c2]
        simp [hec, show (c == c2) = false by simpa using fun h => hc h.symm]

lemma ledgerInv_cancel (s s1 : LedgerState) (uid : String) (a : ℚ)
    (hok : cancel_bet s uid a = .ok s1)
    (hinv : LedgerInv s) : LedgerInv s1 := by
  obtain ⟨hnd, hpos, htot⟩ := hinv
  cases hfe : findEntry s uid with
  | none =>
    simp only [cancel_bet, hfe] at hok
    exact Except.noConfusion hok
  | some e =>
    simp only [cancel_bet, hfe] at hok
    by_cases hlt : e.amount < a
    · rw [if_pos hlt] at hok
      exact Except.noConfusion hok
    · rw [if_neg hlt] at hok
      by_cases hz : e.amount - a = 0
      · rw [if_pos hz] at hok
        injection hok with hok
        subst hok
        have ha : a = e.amount := by linarith [sub_eq_zero.mp hz]
        refine ⟨goodKeys_setTotal _ _ _ (goodKeys_delEntry _ _ hnd), ?_, ?_⟩
        · intro p hp
          rw [entries_setTotal] at hp
          exact hpos p (mem_delEntry _ _ _ hp)
        · intro c2
          by_cases hc : c2 = e.color
          · subst hc
            rw [getTotal_setTotal_self, sumOnSide_setTotal,
              sumOnSide_delEntry s uid e _ hnd hfe, getTotal_delEntry,
              htot e.color]
            simp
            linarith
          · rw [getTotal_setTotal_ne _ _ _ _ hc, sumOnSide_setTotal,
              getTotal_delEntry, sumOnSide_delEntry s uid e _ hnd hfe, htot c2]
            simp [show (e.color == c2) = false by simpa using fun h => hc h.symm]
      · rw [if_neg hz] at hok
        injection hok with hok
        subst hok
        refine ⟨goodKeys_setTotal _ _ _ (goodKeys_setEntry _ _ _ hnd), ?_, ?_⟩
        · intro p hp
          rw [entries_setTotal] at hp
          rcases mem_setEntry _ _ _ _ hp with h | h
          · exact hpos p h
          · subst h
            simp
            linarith
        · intro c2
          by_cases hc : c2 = e.color
          · subst hc
            rw [getTotal_setTotal_self, sumOnSide_setTotal,
              sumOnSide_setEntry_some s uid _ e _ hnd hfe, getTotal_setEntry,
              htot e.color]
            simp
            ring
          · rw [getTotal_setTotal_ne _ _ _ _ hc, sumOnSide_setTotal,
              getTotal_setEntry, sumOnSide_setEntry_some s uid _ e _ hnd hfe,
              htot c2]
            simp [show (e.color == c2) = false by simpa using fun h => hc h.symm]

/-- `noFlipFrom s ops` holds when no `place` in `ops` ever lands on a
user whose stored entry records the opposite color (evaluated along the
execution from `s`). -/
def noFlipFrom : LedgerState → List LedgerOp → Bool
  | _, [] => true
  | s, .place uid a c :: rest =>
    (match findEntry s uid with
     | none => true
     | some e => e.color == c) && noFlipFrom (stepLedger s (.place uid a c)) rest
  | s, .cancel uid a :: rest => noFlipFrom (stepLedger s (.cancel uid a)) rest

/-- Every `place` in the sequence carries a positive amount (the
service-level validation `isValidBetAmount` guarantees this before the
script runs). -/
def placesPositive : List LedgerOp → Bool
  | [] => true
  | .place _ a _ :: rest => decide (0 < a) && placesPositive rest
  | .cancel _ _ :: rest => placesPositive rest

lemma ledgerInv_foldl (ops : List LedgerOp) :
    ∀ s, LedgerInv s → placesPositive ops = true → noFlipFrom s ops = true →
      LedgerInv (ops.foldl stepLedger s) := by
  induction ops with
  | nil => intro s hinv _ _; exact hinv
  | cons op rest ih =>
    intro s hinv hpos hflip
    cases op with
    | place uid a c =>
      simp only [placesPositive, Bool.and_eq_true, decide_eq_true_eq] at hpos
      simp only [noFlipFrom, Bool.and_eq_true] at hflip
      refine ih (stepLedger s (.place uid a c)) ?_ hpos.2 hflip.2
      have hcond : ∀ e, findEntry s uid = some e → e.color = c := by
        intro e he
        have hm := hflip.1
        rw [he] at hm
        simpa using hm
      exact ledgerInv_place s uid a c hpos.1 hcond hinv
    | cancel uid a =>
      simp only [placesPositive] at hpos
      simp only [noFlipFrom] at hflip
      refine ih (stepLedger s (.cancel uid a)) ?_ hpos hflip
      simp only [stepLedger]
      cases hres : cancel_bet s uid a with
      | error _ => exact hinv
      | ok s1 => exact ledgerInv_cancel s s1 uid a hres hinv

/-! ### findEntry after each mutation -/

lemma all_false_of_not_any (l : List (String × LedgerEntry)) (uid : String)
    (h : ¬ l.any (fun p => p.1 == uid) = true) :
    ∀ q ∈ l, (q.1 == uid) = false := by
  intro q hq
  cases hcase : (q.1 == uid) with
  | false => rfl
  | true => exact absurd (List.any_eq_true.mpr ⟨q, hq, hcase⟩) h

lemma find_map_replace_self (l : List (String × LedgerEntry)) (uid : String)
    (e : LedgerEntry) (h : l.any (fun p => p.1 == uid) = true) :
    (l.map (fun p => if p.1 == uid then (uid, e) else p)).find?
        (fun p => p.1 == uid) = some (uid, e) := by
  induction l with
  | nil => simp at h
  | cons p t ih =>
    by_cases hp : (p.1 == uid) = true
    · simp only [List.map_cons, if_pos hp]
      exact List.find?_cons_of_pos _ (by simp)
    · have hp2 : (p.1 == uid) = false := by simpa using hp
      have ht : t.any (fun q => q.1 == uid) = true := by
        rcases List.any_eq_true.mp h with ⟨q, hq, hq2⟩
        rcases List.mem_cons.mp hq with hq3 | hq3
        · rw [hq3, hp2] at hq2; exact absurd hq2 (by simp)
        · exact List.any_eq_true.mpr ⟨q, hq3, hq2⟩
      simp only [List.map_cons, if_neg hp]
      rw [List.find?_cons_of_neg]
      · exact ih ht
      · simp [hp2]

lemma find_append_self (l : List (String × LedgerEntry)) (uid : String)
    (e : LedgerEntry) (h : ∀ q ∈ l, (q.1 == uid) = false) :
    (l ++ [(uid, e)]).find? (fun p => p.1 == uid) = some (uid, e) := by
  induction l with
  | nil => simp [List.find?_cons]
  | cons p t ih =>
    have hp := h p (by simp)
    simp only [List.cons_append, List.find?_cons, hp]
    exact ih (fun q hq => h q (List.mem_cons_of_mem _ hq))

lemma findEntry_setEntry_self (s : LedgerState) (uid : String)
    (e : LedgerEntry) : findEntry (setEntry s uid e) uid = some e := by
  unfold findEntry setEntry
  split
  · rename_i hany
    rw [find_map_replace_self _ _ _ hany]
    rfl
  · rename_i hany
    rw [find_append_self _ _ _ (all_false_of_not_any _ _ hany)]
    rfl

lemma findEntry_delEntry_self (s : LedgerState) (uid : String) :
    findEntry (delEntry s uid) uid = none := by
  unfold findEntry delEntry
  rw [List.find?_eq_none.mpr]
  · rfl
  · intro x hx
    have := List.of_mem_filter hx
    simpa using this

lemma findEntry_setTotal (s : LedgerState) (c : FighterColor) (v : ℚ)
    (uid : String) : findEntry (setTotal s c v) uid = findEntry s uid := by
  cases c <;> rfl

/-! ### Claim theorems for the atomic ledger scripts (C5, C6, C7) -/

/-- Claim C5: starting from the empty ledger, after every sequence of
`place_bet` invocations and `cancel_bet` invocations (failed cancels
leave the state untouched, so the sequence may in particular consist of
placements and successful cancels only), the sum of the two per-side
aggregate totals equals the sum of all currently stored per-user entry
amounts. -/
theorem ledger_conservation (ops : List LedgerOp) :
    getTotal (runLedger ops) FighterColor.red
      + getTotal (runLedger ops) FighterColor.blue
      = entriesSum (runLedger ops) :=
  (goodKeys_conserved_foldl ops LedgerState.empty goodKeys_empty
    (by simp [ConservedSum, LedgerState.empty, entriesSum])).2

/-- Claim C6 counterexample: with only positive placement amounts, a user
who places 10 on red, then 10 on blue (the entry's recorded side flips to
blue while the accumulated amount becomes 20), and then cancels 20, drives
the blue side total to −10: the blue aggregate is decremented by an amount
that was never fully added to blue, and it becomes negative. -/
theorem side_total_negative_cex :
    placesPositive
        [LedgerOp.place "u" 10 FighterColor.red,
         LedgerOp.place "u" 10 FighterColor.blue,
         LedgerOp.cancel "u" 20] = true
    ∧ getTotal
        (runLedger
          [LedgerOp.place "u" 10 FighterColor.red,
           LedgerOp.place "u" 10 FighterColor.blue,
           LedgerOp.cancel "u" 20]) FighterColor.blue = -10 := by
  constructor
  · rfl
  · norm_num [runLedger, stepLedger, place_bet, cancel_bet, findEntry, setEntry,
      delEntry, setTotal, getTotal, LedgerState.empty, List.find?]

/-- Claim C6 (amended): starting from the empty ledger, if every placed
amount is positive and no user ever places on the opposite side of their
existing entry, then each side total equals the sum of the entry amounts
recorded on that side — hence it is nonnegative, and every successful
cancel decrements a side only by amounts previously accumulated on that
same side. Without the no-flip hypothesis the property fails
(`side_total_negative_cex`). -/
theorem side_totals_conserved_nonneg (ops : List LedgerOp)
    (hpos : placesPositive ops = true)
    (hflip : noFlipFrom LedgerState.empty ops = true) (c : FighterColor) :
    getTotal (runLedger ops) c = sumOnSide (runLedger ops) c
      ∧ 0 ≤ getTotal (runLedger ops) c := by
  have hinv := ledgerInv_foldl ops LedgerState.empty ledgerInv_empty hpos hflip
  refine ⟨hinv.2.2 c, ?_⟩
  rw [show runLedger ops = ops.foldl stepLedger LedgerState.empty from rfl,
    hinv.2.2 c, sumOnSide_eq]
  apply List.sum_nonneg
  intro x hx
  obtain ⟨p, hp, hpx⟩ := List.mem_map.mp hx
  rw [← hpx]
  unfold sideWeight
  split
  · exact hinv.2.1 p hp
  · exact le_refl 0

/-- Witness for `side_totals_conserved_nonneg` at a concrete run. -/
theorem side_totals_conserved_nonneg_witness :
    getTotal
        (runLedger [LedgerOp.place "a" 5 FighterColor.red,
                    LedgerOp.cancel "a" 3]) FighterColor.red
      = sumOnSide
          (runLedger [LedgerOp.place "a" 5 FighterColor.red,
                      LedgerOp.cancel "a" 3]) FighterColor.red
    ∧ 0 ≤ getTotal
        (runLedger [LedgerOp.place "a" 5 FighterColor.red,
                    LedgerOp.cancel "a" 3]) FighterColor.red :=
  side_totals_conserved_nonneg
    [LedgerOp.place "a" 5 FighterColor.red, LedgerOp.cancel "a" 3]
    (by rfl) (by rfl) FighterColor.red

/-- Claim C7: the full contract of `cancel_bet.lua`. With no stored entry
it fails `NO_BET`; with a stored amount smaller than the request it fails
`INSUFFICIENT_BET`; in both failure cases the state is unchanged. On
success it subtracts the amount, the per-user key remains exactly when
the remainder is nonzero (with the color preserved), the side aggregate
recorded in the entry drops by the amount, the other side is untouched,
and after cancelling the exact full amount any subsequent cancel fails
`NO_BET`. -/
theorem cancel_bet_contract (s : LedgerState) (uid : String) (amt : ℚ) :
    (findEntry s uid = none →
      cancel_bet s uid amt = .error CancelErr.NO_BET
        ∧ stepLedger s (.cancel uid amt) = s)
    ∧ (∀ e, findEntry s uid = some e → e.amount < amt →
        cancel_bet s uid amt = .error CancelErr.INSUFFICIENT_BET
          ∧ stepLedger s (.cancel uid amt) = s)
    ∧ (∀ e, findEntry s uid = some e → amt ≤ e.amount →
        cancel_bet s uid amt = .ok (stepLedger s (.cancel uid amt))
          ∧ findEntry (stepLedger s (.cancel uid amt)) uid
              = (if e.amount - amt = 0 then none
                 else some ⟨e.amount - amt, e.color⟩)
          ∧ getTotal (stepLedger s (.cancel uid amt)) e.color
              = getTotal s e.color - amt
          ∧ (∀ c, c ≠ e.color →
              getTotal (stepLedger s (.cancel uid amt)) c = getTotal s c)
          ∧ (e.amount = amt → ∀ amt2,
              cancel_bet (stepLedger s (.cancel uid amt)) uid amt2
                = .error CancelErr.NO_BET)) := by
  refine ⟨?_, ?_, ?_⟩
  · intro h
    have herr : cancel_bet s uid amt = .error CancelErr.NO_BET := by
      simp [cancel_bet, h]
    exact ⟨herr, by simp [stepLedger, herr]⟩
  · intro e he hlt
    have herr : cancel_bet s uid amt = .error CancelErr.INSUFFICIENT_BET := by
      simp only [cancel_bet, he]
      rw [if_pos hlt]
    exact ⟨herr, by simp [stepLedger, herr]⟩
  · intro e he hle
    have hnl : ¬ e.amount < amt := not_lt.mpr hle
    by_cases hz : e.amount - amt = 0
    · have hok : cancel_bet s uid amt
          = .ok (setTotal (delEntry s uid) e.color
              (getTotal (delEntry s uid) e.color + (-amt))) := by
        simp only [cancel_bet, he]
        rw [if_neg hnl]
        simp only [if_pos hz]
      have hstep : stepLedger s (.cancel uid amt)
          = setTotal (delEntry s uid) e.color
              (getTotal (delEntry s uid) e.color + (-amt)) := by
        simp [stepLedger, hok]
      have hgone : findEntry (stepLedger s (.cancel uid amt)) uid = none := by
        rw [hstep, findEntry_setTotal]
        exact findEntry_delEntry_self s uid
      refine ⟨by rw [hok, hstep], ?_, ?_, ?_, ?_⟩
      · rw [if_pos hz, hgone]
      · rw [hstep, getTotal_setTotal_self, getTotal_delEntry]
        ring
      · intro c hc
        rw [hstep, getTotal_setTotal_ne _ _ _ _ hc, getTotal_delEntry]
      · intro _ amt2
        simp [cancel_bet, hgone]
    · have hok : cancel_bet s uid amt
          = .ok (setTotal (setEntry s uid ⟨e.amount - amt, e.color⟩) e.color
              (getTotal (setEntry s uid ⟨e.amount - amt, e.color⟩) e.color
                + (-amt))) := by
        simp only [cancel_bet, he]
        rw [if_neg hnl]
        simp only [if_neg hz]
      have hstep : stepLedger s (.cancel uid amt)
          = setTotal (setEntry s uid ⟨e.amount - amt, e.color⟩) e.color
              (getTotal (setEntry s uid ⟨e.amount - amt, e.color⟩) e.color
                + (-amt)) := by
        simp [stepLedger, hok]
      refine ⟨by rw [hok, hstep], ?_, ?_, ?_, ?_⟩
      · rw [if_neg hz, hstep, findEntry_setTotal, findEntry_setEntry_self]
      · rw [hstep, getTotal_setTotal_self, getTotal_setEntry]
        ring
      · intro c hc
        rw [hstep, getTotal_setTotal_ne _ _ _ _ hc, getTotal_setEntry]
      · intro heq
        exact absurd (by rw [heq]; ring) hz

/-- Witness for `cancel_bet_contract`: one concrete full cancel followed
by the `NO_BET` failure, and one concrete `INSUFFICIENT_BET` failure. -/
theorem cancel_bet_contract_witness :
    cancel_bet ⟨[("a", ⟨5, FighterColor.red⟩)], 5, 0⟩ "a" 5
        = .ok (stepLedger ⟨[("a", ⟨5, FighterColor.red⟩)], 5, 0⟩
            (.cancel "a" 5))
      ∧ findEntry (stepLedger ⟨[("a", ⟨5, FighterColor.red⟩)], 5, 0⟩
            (.cancel "a" 5)) "a" = none
      ∧ cancel_bet ⟨[("a", ⟨5, FighterColor.red⟩)], 5, 0⟩ "a" 7
        = .error CancelErr.INSUFFICIENT_BET := by
  have h := (cancel_bet_contract ⟨[("a", ⟨5, FighterColor.red⟩)], 5, 0⟩
      "a" 5).2.2 ⟨5, FighterColor.red⟩ (by rfl) (le_refl 5)
  have h7 := (cancel_bet_contract ⟨[("a", ⟨5, FighterColor.red⟩)], 5, 0⟩
      "a" 7).2.1 ⟨5, FighterColor.red⟩ (by rfl) (by norm_num)
  obtain ⟨h1, h2, _⟩ := h
  rw [if_pos (by norm_num)] at h2
  exact ⟨h1, h2, h7.1⟩

/-! ### Bet-amount validation (C9) -/

/-- The IEEE-754 binary64 value of the literal `0.05`:
`round(0.05 * 2 ^ 56) = 3602879701896397`. -/
def double005 : ℚ := 3602879701896397 / 2 ^ 56

/-- The IEEE-754 binary64 value of the literal `0.001`:
`round(0.001 * 2 ^ 60) = 1152921504606847`. -/
def double0001 : ℚ := 1152921504606847 / 2 ^ 60

/-- JavaScript's `%`: `x % y = x - y * trunc(x / y)`. For binary64
operands the remainder is computed exactly (fmod introduces no
rounding), so on the exact rational values of doubles this is the
double computation itself; for a positive dividend truncation coincides
with the floor used here, and the only use below is guarded by the
short-circuit `amount > 0 &&`. -/
def jsMod (x y : ℚ) : ℚ := x - y * ⌊x / y⌋

/-- `BetService.isValidBetAmount`:
`amount > 0 && Math.abs(amount % 0.05) < 0.001`. The literals denote
their binary64 values (`double005`, `double0001`) and `%` the exact
remainder; since fmod and comparisons of doubles are exact, for an
`amount` that is itself a binary64 value this Boolean coincides with
the one the source computes. -/
def isValidBetAmount (amount : ℚ) : Bool :=
  decide (0 < amount) && decide (|jsMod amount double005| < double0001)

/-- Claim C9 counterexample, evaluated at the binary64 values of the
user-facing decimal literals — in order: 0.05 (`3602879701896397/2^56`),
0.10 (`…/2^55`), 0.07 (`1261007895663739/2^54`), 0.0505
(`3638908498915361/2^56`), 0.15 (`5404319552844595/2^55`); each is
checkable as `round(decimal * 2^e) = m`. The spec's spot checks hold —
0.05 and 0.10 accepted, 0.07 rejected — but the claimed
«exactly the exact multiples of 0.05» characterization fails in both
directions: 0.0505, not an integer multiple of 0.05 (fifth conjunct),
is accepted, its remainder being ≈ 0.0005 < 0.001; and 0.15, an exact
decimal multiple of 0.05 — its double sits within half an ulp below
3/20 (last two conjuncts) — is rejected, because that double falls just
below `3 * double005`, making the double remainder ≈ 0.05. -/
theorem bet_amount_tolerance_cex :
    isValidBetAmount (3602879701896397 / 2 ^ 56) = true
      ∧ isValidBetAmount (3602879701896397 / 2 ^ 55) = true
      ∧ isValidBetAmount (1261007895663739 / 2 ^ 54) = false
      ∧ isValidBetAmount (3638908498915361 / 2 ^ 56) = true
      ∧ (∀ k : ℤ, (3638908498915361 / 2 ^ 56 : ℚ) ≠ (k : ℚ) * (1 / 20))
      ∧ isValidBetAmount (5404319552844595 / 2 ^ 55) = false
      ∧ (3 / 20 : ℚ) - 1 / 2 ^ 56 < 5404319552844595 / 2 ^ 55
      ∧ (5404319552844595 / 2 ^ 55 : ℚ) < 3 / 20 := by
  refine ⟨?_, ?_, ?_, ?_, ?_, ?_, ?_, ?_⟩
  · norm_num [isValidBetAmount, jsMod, double005, double0001]
  · norm_num [isValidBetAmount, jsMod, double005, double0001]
  · have habs : |(1441151880758559 / 72057594037927936 : ℚ)|
        = 1441151880758559 / 72057594037927936 := abs_of_pos (by norm_num)
    norm_num [isValidBetAmount, jsMod, double005, double0001, habs]
  · have habs : |(9007199254741 / 18014398509481984 : ℚ)|
        = 9007199254741 / 18014398509481984 := abs_of_pos (by norm_num)
    norm_num [isValidBetAmount, jsMod, double005, double0001, habs]
  · intro k h
    have h2 : (72778169978307220 : ℚ) = 72057594037927936 * (k : ℚ) := by
      field_simp at h
      linarith
    have h3 : (72778169978307220 : ℤ) = 72057594037927936 * k := by
      exact_mod_cast h2
    omega
  · have habs : |(900719925474099 / 18014398509481984 : ℚ)|
        = 900719925474099 / 18014398509481984 := abs_of_pos (by norm_num)
    norm_num [isValidBetAmount, jsMod, double005, double0001, habs]
  · norm_num
  · norm_num

/-- The window characterization of the tolerance test, for any positive
divisor `y` and tolerance `t ≤ y`. -/
lemma jsMod_window (y t a : ℚ) (hy : 0 < y) (ht : 0 < t) (hty : t ≤ y) :
    |jsMod a y| < t ↔ ∃ k : ℤ, (k : ℚ) * y ≤ a ∧ a < (k : ℚ) * y + t := by
  unfold jsMod
  constructor
  · intro htol
    refine ⟨⌊a / y⌋, ?_, ?_⟩
    · have hfl : ((⌊a / y⌋ : ℚ)) ≤ a / y := Int.floor_le _
      exact (le_div_iff hy).mp hfl
    · have h2 := (abs_lt.mp htol).2
      linarith [mul_comm ((⌊a / y⌋ : ℚ)) y]
  · rintro ⟨k, hk1, hk2⟩
    have hkfl : ⌊a / y⌋ = k := by
      rw [Int.floor_eq_iff]
      constructor
      · exact (le_div_iff hy).mpr hk1
      · rw [div_lt_iff hy]
        have hexp : ((k : ℚ) + 1) * y = (k : ℚ) * y + y := by ring
        push_cast
        linarith
    rw [hkfl, abs_lt]
    constructor
    · linarith [mul_comm (k : ℚ) y]
    · linarith [mul_comm (k : ℚ) y]

/-- Claim C9 (amended): the validation is a tolerance window in double
arithmetic, not an exact-multiple test — an amount (the binary64 value
of the user's input) is accepted iff it is positive and lies in the
half-open window `[m, m + double0001)` for some integer multiple `m` of
`double005`. Decimal multiples of 0.05 whose doubles land just below a
multiple of `double005` (such as 0.15) fall outside every window and
are rejected, while non-multiples inside a window (such as 0.0505) are
accepted (`bet_amount_tolerance_cex`). -/
theorem bet_amount_validation (amount : ℚ) :
    isValidBetAmount amount = true
      ↔ 0 < amount ∧ ∃ k : ℤ, (k : ℚ) * double005 ≤ amount
          ∧ amount < (k : ℚ) * double005 + double0001 := by
  simp only [isValidBetAmount, Bool.and_eq_true, decide_eq_true_eq]
  exact and_congr_right fun _ =>
    jsMod_window double005 double0001 amount (by norm_num [double005])
      (by norm_num [double0001]) (by norm_num [double005, double0001])

/-- Witness for `bet_amount_validation` at the double of 0.10 (which is
exactly `2 * double005`). -/
theorem bet_amount_validation_witness :
    isValidBetAmount (3602879701896397 / 2 ^ 55) = true :=
  (bet_amount_validation (3602879701896397 / 2 ^ 55)).mpr
    ⟨by norm_num, 2, by norm_num [double005],
     by norm_num [double005, double0001]⟩

/-! ### Durable data model (entities `User` and `Bet`) -/

/-- The fields of the `User` entity that the core mutates during
settlement and payout (`src/packages/core/src/entities/User.ts`). -/
structure User where
  id : String
  balance : ℚ
  totalWins : ℕ
  totalLosses : ℕ
  totalRevenueGained : ℚ
  totalRevenueLost : ℚ
deriving DecidableEq, Repr

/-- A durable `Bet` row (`src/packages/core/src/entities/Bet.ts`); the
user and match relations are embedded as the owning user's id (the match
id plays no role inside one payout run, which already receives only the
bets of one match). -/
structure Bet where
  userId : String
  amount : ℚ
  fighterColor : FighterColor
deriving DecidableEq, Repr

/-- `manager.findOne(User, { where: { id } })` over an explicit table. -/
def findUser (db : List User) (uid : String) : Option User :=
  db.find? (fun u => u.id == uid)

/-- `manager.save(user)`: replace the row with the same primary key. -/
def saveUser (db : List User) (u : User) : List User :=
  db.map (fun v => if v.id == u.id then u else v)

/-- The body shape shared by every payout/settlement loop iteration:
`findOne` the bet's user, skip the bet if the user is missing
(`if (!user) continue`), otherwise mutate and `save`. -/
def payoutStep (f : Bet → User → User) (db : List User) (bet : Bet) :
    List User :=
  match findUser db bet.userId with
  | none => db
  | some u => saveUser db (f bet u)

/-! ### find/save lemmas -/

lemma findUser_id (db : List User) (uid : String) (u : User)
    (h : findUser db uid = some u) : u.id = uid := by
  have := List.find?_some h
  simpa using this

lemma findUser_mem (db : List User) (uid : String) (u : User)
    (h : findUser db uid = some u) : u ∈ db :=
  List.mem_of_find?_eq_some h

lemma findUser_saveUser_ne (db : List User) (u : User) (x : String)
    (hx : x ≠ u.id) : findUser (saveUser db u) x = findUser db x := by
  induction db with
  | nil => rfl
  | cons v t ih =>
    by_cases hv : (v.id == u.id) = true
    · have hvid : v.id = u.id := by simpa using hv
      have h1 : (u.id == x) = false := by
        simp [show u.id ≠ x from fun h => hx h.symm]
      have h2 : (v.id == x) = false := by
        simp [hvid, show u.id ≠ x from fun h => hx h.symm]
      simp only [saveUser, List.map_cons, if_pos hv, findUser, List.find?_cons,
        h1, h2]
      exact ih
    · simp only [saveUser, List.map_cons, if_neg hv, findUser, List.find?_cons]
      cases hvx : (v.id == x) with
      | true => rfl
      | false => exact ih

lemma saveUser_not_found (db : List User) (u : User)
    (h : findUser db u.id = none) : saveUser db u = db := by
  induction db with
  | nil => rfl
  | cons v t ih =>
    unfold findUser at h ih
    rw [List.find?_cons] at h
    cases hv : (v.id == u.id) with
    | true => rw [hv] at h; exact absurd h (by simp)
    | false =>
      rw [hv] at h
      simp only [saveUser, List.map_cons, hv, Bool.false_eq_true, if_false]
      rw [show (List.map (fun v => if v.id == u.id then u else v) t)
          = saveUser t u from rfl, ih h]

lemma findUser_saveUser_self (db : List User) (u : User)
    (h : (findUser db u.id).isSome) :
    findUser (saveUser db u) u.id = some u := by
  induction db with
  | nil => simp [findUser] at h
  | cons v t ih =>
    by_cases hv : (v.id == u.id) = true
    · simp only [saveUser, List.map_cons, if_pos hv, findUser, List.find?_cons]
      simp
    · unfold findUser at h ih
      rw [List.find?_cons] at h
      have hv2 : (v.id == u.id) = false := by simpa using hv
      rw [hv2] at h
      simp only [saveUser, List.map_cons, findUser, List.find?_cons, hv2,
        Bool.false_eq_true, if_false]
      exact ih h

lemma isSome_findUser_saveUser (db : List User) (u : User) (x : String) :
    (findUser (saveUser db u) x).isSome = (findUser db x).isSome := by
  by_cases hx : x = u.id
  · subst hx
    cases h : findUser db u.id with
    | none => rw [saveUser_not_found db u h, h]
    | some v =>
      rw [findUser_saveUser_self db u (by rw [h]; rfl)]
      rfl
  · rw [findUser_saveUser_ne db u x hx]

/-! ### Fold lemmas for the payout/settlement loops -/

/-- A fold of `payoutStep` never touches a user none of whose bets are in
the list. -/
lemma foldl_payoutStep_not_mem (f : Bet → User → User)
    (hpres : ∀ bet u, (f bet u).id = u.id) (bets : List Bet) :
    ∀ (db : List User) (x : String), (∀ b ∈ bets, b.userId ≠ x) →
      findUser (bets.foldl (payoutStep f) db) x = findUser db x := by
  induction bets with
  | nil => intro db x _; rfl
  | cons b t ih =>
    intro db x hx
    rw [List.foldl_cons,
      ih (payoutStep f db b) x (fun q hq => hx q (List.mem_cons_of_mem _ hq))]
    unfold payoutStep
    cases hu : findUser db b.userId with
    | none => rfl
    | some u =>
      have hid : (f b u).id = b.userId := by
        rw [hpres b u]
        exact findUser_id db b.userId u hu
      have hxne : x ≠ (f b u).id := by
        rw [hid]
        intro hh
        exact hx b (by simp) hh.symm
      exact findUser_saveUser_ne db (f b u) x hxne

/-- When bet user ids are distinct, a fold of `payoutStep` applies `f`
exactly once to the present user of each bet in the list. -/
lemma foldl_payoutStep_once (f : Bet → User → User)
    (hpres : ∀ bet u, (f bet u).id = u.id) (bets : List Bet) :
    ∀ (db : List User) (bet : Bet) (u : User),
      (bets.map (fun b => b.userId)).Nodup → bet ∈ bets →
      findUser db bet.userId = some u →
      findUser (bets.foldl (payoutStep f) db) bet.userId = some (f bet u) := by
  induction bets with
  | nil => intro db bet u _ hb _; exact absurd hb (List.not_mem_nil bet)
  | cons b t ih =>
    intro db bet u hnd hb hu
    rw [List.map_cons, List.nodup_cons] at hnd
    rw [List.foldl_cons]
    rcases List.mem_cons.mp hb with hbe | hbt
    · subst hbe
      have hstep : payoutStep f db bet = saveUser db (f bet u) := by
        unfold payoutStep
        rw [hu]
      have hall : ∀ q ∈ t, q.userId ≠ bet.userId := by
        intro q hq hqx
        exact hnd.1 (hqx ▸ List.mem_map_of_mem (fun b => b.userId) hq)
      rw [hstep,
        foldl_payoutStep_not_mem f hpres t (saveUser db (f bet u))
          bet.userId hall]
      have hid : (f bet u).id = bet.userId := by
        rw [hpres bet u]
        exact findUser_id db bet.userId u hu
      have hself := findUser_saveUser_self db (f bet u) (by rw [hid, hu]; rfl)
      rw [hid] at hself
      exact hself
    · have hne : b.userId ≠ bet.userId := by
        intro hh
        exact hnd.1 (hh ▸ List.mem_map_of_mem (fun b => b.userId) hbt)
      have hu2 : findUser (payoutStep f db b) bet.userId = some u := by
        unfold payoutStep
        cases hub : findUser db b.userId with
        | none => exact hu
        | some v =>
          have hidv : (f b v).id = b.userId := by
            rw [hpres b v]
            exact findUser_id db b.userId v hub
          rw [findUser_saveUser_ne db (f b v) bet.userId
            (by rw [hidv]; exact fun hh => hne hh.symm)]
          exact hu
      exact ih (payoutStep f db b) bet u hnd.2 hbt hu2

/-! ### Payout engine (`PayoutService.calculateAndDistributePayouts`) -/

/-- `PayoutService.calculateAndDistributePayouts`, acting on the bets of
the match and the user table, translated clause by clause: partition into
winning and losing bets, sum the two pools; if no bet is on the winning
side refund every bet's amount (and touch no counters); otherwise pay
each winning user `amount + amount / winningPool * losingPool` with
`totalWins`/`totalRevenueGained` updates, then update the losers'
`totalLosses`/`totalRevenueLost` (no balance change). A bet whose user
is not in the table is skipped (`if (!user) continue`). The enclosing
database transaction makes the run all-or-nothing; the embedding returns
the committed table. -/
def calculateAndDistributePayouts (bets : List Bet) (winner : FighterColor)
    (db : List User) : List User :=
  let winningBets := bets.filter (fun bet => bet.fighterColor == winner)
  let losingBets := bets.filter (fun bet => !(bet.fighterColor == winner))
  let winningPool := (winningBets.map (fun bet => bet.amount)).sum
  let losingPool := (losingBets.map (fun bet => bet.amount)).sum
  if winningBets.isEmpty then
    bets.foldl (payoutStep (fun bet u =>
      { u with balance := u.balance + bet.amount })) db
  else
    let db1 := winningBets.foldl (payoutStep (fun bet u =>
      let shareOfLosingPool := bet.amount / winningPool * losingPool
      let totalPayout := bet.amount + shareOfLosingPool
      { u with
          balance := u.balance + totalPayout,
          totalWins := u.totalWins + 1,
          totalRevenueGained := u.totalRevenueGained + shareOfLosingPool })) db
    losingBets.foldl (payoutStep (fun bet u =>
      { u with
          totalLosses := u.totalLosses + 1,
          totalRevenueLost := u.totalRevenueLost + bet.amount })) db1

/-- `P_win`: the sum of the amounts staked on the winning side. -/
def winningPool (bets : List Bet) (winner : FighterColor) : ℚ :=
  ((bets.filter (fun bet => bet.fighterColor == winner)).map
    (fun bet => bet.amount)).sum

/-- `P_lose`: the sum of the amounts staked on the losing side. -/
def losingPool (bets : List Bet) (winner : FighterColor) : ℚ :=
  ((bets.filter (fun bet => !(bet.fighterColor == winner))).map
    (fun bet => bet.amount)).sum

/-- The per-bet update of the refund loop (`user.balance += bet.amount`,
no counter changes). -/
def refundUpdate : Bet → User → User :=
  fun bet u => { u with balance := u.balance + bet.amount }

/-- The per-bet update of the winners loop. -/
def winUpdate (bets : List Bet) (winner : FighterColor) : Bet → User → User :=
  fun bet u =>
    { u with
        balance := u.balance
          + (bet.amount
            + bet.amount / winningPool bets winner * losingPool bets winner),
        totalWins := u.totalWins + 1,
        totalRevenueGained := u.totalRevenueGained
          + bet.amount / winningPool bets winner * losingPool bets winner }

/-- The per-bet update of the losers loop. -/
def loseUpdate : Bet → User → User :=
  fun bet u =>
    { u with
        totalLosses := u.totalLosses + 1,
        totalRevenueLost := u.totalRevenueLost + bet.amount }

lemma calculate_eq_of_winning_nonempty (bets : List Bet)
    (winner : FighterColor) (db : List User)
    (hne : (bets.filter (fun bet => bet.fighterColor == winner)).isEmpty
      = false) :
    calculateAndDistributePayouts bets winner db
      = (bets.filter (fun bet => !(bet.fighterColor == winner))).foldl
          (payoutStep loseUpdate)
          ((bets.filter (fun bet => bet.fighterColor == winner)).foldl
            (payoutStep (winUpdate bets winner)) db) := by
  simp only [calculateAndDistributePayouts]
  rw [if_neg (by simp [hne])]
  rfl

lemma calculate_eq_of_winning_empty (bets : List Bet)
    (winner : FighterColor) (db : List User)
    (hemp : bets.filter (fun bet => bet.fighterColor == winner) = []) :
    calculateAndDistributePayouts bets winner db
      = bets.foldl (payoutStep refundUpdate) db := by
  simp only [calculateAndDistributePayouts]
  rw [if_pos (by rw [hemp]; rfl)]
  rfl

/-- Claim C3: with at least one stake on the winning side (and distinct
bettors with positive settled amounts, all present in the user table),
the payout run pays each winning stake's user exactly
`amount + (amount / P_win) * P_lose`, increments `totalWins` by 1 and
adds only the share (not the principal) to `totalRevenueGained`; each
losing stake's user keeps their balance and gets `totalLosses + 1` and
`totalRevenueLost + amount`. -/
theorem payout_distribution (bets : List Bet) (winner : FighterColor)
    (db : List User)
    (hnd : (bets.map (fun b => b.userId)).Nodup)
    (hpos : ∀ b ∈ bets, 0 < b.amount)
    (hwin : ∃ b ∈ bets, b.fighterColor = winner)
    (bet : Bet) (hb : bet ∈ bets) (u : User)
    (hu : findUser db bet.userId = some u) :
    findUser (calculateAndDistributePayouts bets winner db) bet.userId
      = some (if bet.fighterColor = winner then
          { u with
              balance := u.balance
                + (bet.amount
                  + bet.amount / winningPool bets winner
                    * losingPool bets winner),
              totalWins := u.totalWins + 1,
              totalRevenueGained := u.totalRevenueGained
                + bet.amount / winningPool bets winner
                  * losingPool bets winner }
        else
          { u with
              totalLosses := u.totalLosses + 1,
              totalRevenueLost := u.totalRevenueLost + bet.amount }) := by
  obtain ⟨bw, hbw, hbwc⟩ := hwin
  have hinj := List.inj_on_of_nodup_map hnd
  have hflne : bets.filter (fun bet => bet.fighterColor == winner) ≠ [] := by
    intro hemp
    have hmem : bw ∈ bets.filter (fun bet => bet.fighterColor == winner) :=
      List.mem_filter.mpr ⟨hbw, by simp [hbwc]⟩
    rw [hemp] at hmem
    exact List.not_mem_nil bw hmem
  have hne : (bets.filter (fun bet => bet.fighterColor == winner)).isEmpty
      = false := by
    cases hc : bets.filter (fun bet => bet.fighterColor == winner) with
    | nil => exact absurd hc hflne
    | cons a t => rfl
  rw [calculate_eq_of_winning_nonempty bets winner db hne]
  have hndw : ((bets.filter (fun bet => bet.fighterColor == winner)).map
      (fun b => b.userId)).Nodup :=
    List.Nodup.sublist (List.Sublist.map _ (List.filter_sublist _)) hnd
  have hndl : ((bets.filter (fun bet => !(bet.fighterColor == winner))).map
      (fun b => b.userId)).Nodup :=
    List.Nodup.sublist (List.Sublist.map _ (List.filter_sublist _)) hnd
  by_cases hcol : bet.fighterColor = winner
  · have hbwin : bet ∈ bets.filter (fun bet => bet.fighterColor == winner) :=
      List.mem_filter.mpr ⟨hb, by simp [hcol]⟩
    have hall : ∀ q ∈ bets.filter (fun bet => !(bet.fighterColor == winner)),
        q.userId ≠ bet.userId := by
      intro q hq hqx
      have hq1 := List.mem_filter.mp hq
      have hqb : q = bet := hinj hq1.1 hb hqx
      rw [hqb] at hq1
      simp [hcol] at hq1
    rw [foldl_payoutStep_not_mem loseUpdate (fun _ _ => rfl) _ _ _ hall,
      foldl_payoutStep_once (winUpdate bets winner) (fun _ _ => rfl) _ _ _ _
        hndw hbwin hu, if_pos hcol]
    rfl
  · have hblose : bet ∈ bets.filter (fun bet => !(bet.fighterColor == winner)) :=
      List.mem_filter.mpr ⟨hb, by simp [hcol]⟩
    have hall : ∀ q ∈ bets.filter (fun bet => bet.fighterColor == winner),
        q.userId ≠ bet.userId := by
      intro q hq hqx
      have hq1 := List.mem_filter.mp hq
      have hqb : q = bet := hinj hq1.1 hb hqx
      rw [hqb] at hq1
      have := hq1.2
      simp [hcol] at this
    have hu2 : findUser
        ((bets.filter (fun bet => bet.fighterColor == winner)).foldl
          (payoutStep (winUpdate bets winner)) db) bet.userId = some u := by
      rw [foldl_payoutStep_not_mem (winUpdate bets winner) (fun _ _ => rfl)
        _ _ _ hall]
      exact hu
    rw [foldl_payoutStep_once loseUpdate (fun _ _ => rfl) _ _ _ _
      hndl hblose hu2, if_neg hcol]
    rfl

/-- Witness for `payout_distribution`: the spec §8 pari-mutuel example
(`userA: 10 RED, userB: 30 RED, userC: 20 BLUE`, winner RED, all starting
from a zero balance as settlement already debited the stakes): userA
ends at balance 15 with one win and revenue 5; userC keeps balance 0 with
one loss and 20 revenue lost. -/
theorem payout_distribution_witness :
    findUser (calculateAndDistributePayouts
        [⟨"userA", 10, FighterColor.red⟩, ⟨"userB", 30, FighterColor.red⟩,
         ⟨"userC", 20, FighterColor.blue⟩] FighterColor.red
        [⟨"userA", 0, 0, 0, 0, 0⟩, ⟨"userB", 0, 0, 0, 0, 0⟩,
         ⟨"userC", 0, 0, 0, 0, 0⟩]) "userA"
      = some ⟨"userA", 15, 1, 0, 5, 0⟩ := by
  have h := payout_distribution
      [⟨"userA", 10, FighterColor.red⟩, ⟨"userB", 30, FighterColor.red⟩,
       ⟨"userC", 20, FighterColor.blue⟩] FighterColor.red
      [⟨"userA", 0, 0, 0, 0, 0⟩, ⟨"userB", 0, 0, 0, 0, 0⟩,
       ⟨"userC", 0, 0, 0, 0, 0⟩]
      (by decide) (by decide) ⟨⟨"userA", 10, FighterColor.red⟩, by decide, rfl⟩
      ⟨"userA", 10, FighterColor.red⟩ (by decide) ⟨"userA", 0, 0, 0, 0, 0⟩ rfl
  have hbr : (FighterColor.blue == FighterColor.red) = false := rfl
  refine Eq.trans h ?_
  norm_num [winningPool, losingPool, User.mk.injEq, hbr]

/-- Claim C4: when no settled stake is on the winning side, the payout
run refunds every stake's exact amount to its user's balance, leaves all
four win/loss counters unchanged, and touches no other user. -/
theorem payout_refund_no_winner (bets : List Bet) (winner : FighterColor)
    (db : List User)
    (hnd : (bets.map (fun b => b.userId)).Nodup)
    (hnone : ∀ b ∈ bets, b.fighterColor ≠ winner) :
    (∀ bet, bet ∈ bets → ∀ u, findUser db bet.userId = some u →
      findUser (calculateAndDistributePayouts bets winner db) bet.userId
        = some { u with balance := u.balance + bet.amount })
    ∧ ∀ x, (∀ b ∈ bets, b.userId ≠ x) →
        findUser (calculateAndDistributePayouts bets winner db) x
          = findUser db x := by
  have hemp : bets.filter (fun bet => bet.fighterColor == winner) = [] := by
    cases hc : bets.filter (fun bet => bet.fighterColor == winner) with
    | nil => rfl
    | cons b t =>
      have hbm : b ∈ bets.filter (fun bet => bet.fighterColor == winner) := by
        rw [hc]
        simp
      have hsp := List.mem_filter.mp hbm
      exact absurd (by simpa using hsp.2) (hnone b hsp.1)
  rw [calculate_eq_of_winning_empty bets winner db hemp]
  constructor
  · intro bet hb u hu
    exact foldl_payoutStep_once refundUpdate (fun _ _ => rfl) bets db bet u
      hnd hb hu
  · intro x hx
    exact foldl_payoutStep_not_mem refundUpdate (fun _ _ => rfl) bets db x hx

/-- Witness for `payout_refund_no_winner`: two stakes, both on BLUE,
winner RED — both users get exactly their stake back and no counter
moves. -/
theorem payout_refund_no_winner_witness :
    findUser (calculateAndDistributePayouts
        [⟨"userA", 10, FighterColor.blue⟩, ⟨"userB", 5, FighterColor.blue⟩]
        FighterColor.red
        [⟨"userA", 100, 0, 0, 0, 0⟩, ⟨"userB", 50, 0, 0, 0, 0⟩]) "userA"
      = some ⟨"userA", 110, 0, 0, 0, 0⟩ := by
  have h := (payout_refund_no_winner
      [⟨"userA", 10, FighterColor.blue⟩, ⟨"userB", 5, FighterColor.blue⟩]
      FighterColor.red
      [⟨"userA", 100, 0, 0, 0, 0⟩, ⟨"userB", 50, 0, 0, 0, 0⟩]
      (by decide) (by decide)).1
      ⟨"userA", 10, FighterColor.blue⟩ (by decide)
      ⟨"userA", 100, 0, 0, 0, 0⟩ rfl
  refine Eq.trans h ?_
  norm_num [User.mk.injEq]

/-! ### Settlement (`BetService.finalizeBets`, C1) -/

/-- One iteration of the settlement loop: `findOne` the bet's user; if
missing, `continue` (the bet is skipped); otherwise debit the amount
from the durable balance, `save`, and record the durable `Bet` row. -/
def settleStep (acc : List User × List Bet) (bet : Bet) :
    List User × List Bet :=
  match findUser acc.1 bet.userId with
  | none => acc
  | some user =>
    (saveUser acc.1 { user with balance := user.balance - bet.amount },
     acc.2 ++ [bet])

/-- `BetService.finalizeBets`, run inside one database transaction: read
every `bet:active:user:*` hash from the ledger as a bet `(userId,
amount, color)`, process each with `settleStep`, then delete all bet
keys and both side-total keys (leaving the empty ledger). The result is
the committed user table, the created durable `Bet` rows, and the
drained ledger. -/
def finalizeBets (ledger : LedgerState) (db : List User) :
    List User × List Bet × LedgerState :=
  let bets := ledger.entries.map (fun p =>
    ({ userId := p.1, amount := p.2.amount, fighterColor := p.2.color } : Bet))
  let result := bets.foldl settleStep (db, [])
  (result.1, result.2, LedgerState.empty)

/-- The user-table component of the settlement fold is exactly a
`payoutStep` fold with the debit update. -/
lemma settle_fold_fst (bets : List Bet) :
    ∀ (db : List User) (acc : List Bet),
      (bets.foldl settleStep (db, acc)).1
        = bets.foldl (payoutStep (fun bet u =>
            { u with balance := u.balance - bet.amount })) db := by
  induction bets with
  | nil => intro db acc; rfl
  | cons b t ih =>
    intro db acc
    rw [List.foldl_cons, List.foldl_cons]
    unfold settleStep payoutStep
    cases hu : findUser db b.userId with
    | none => exact ih db acc
    | some u => exact ih _ _

/-- When every processed bet's user is present, the settlement fold
accumulates exactly the processed amounts. -/
lemma settle_fold_sum (bets : List Bet) :
    ∀ (db : List User) (acc : List Bet),
      (∀ b ∈ bets, (findUser db b.userId).isSome) →
      ((bets.foldl settleStep (db, acc)).2.map (fun b => b.amount)).sum
        = ((acc.map (fun b => b.amount)).sum
          + (bets.map (fun b => b.amount)).sum) := by
  induction bets with
  | nil => intro db acc _; simp
  | cons b t ih =>
    intro db acc hall
    rw [List.foldl_cons]
    cases hu : findUser db b.userId with
    | none =>
      have := hall b (by simp)
      rw [hu] at this
      exact absurd this (by simp)
    | some u =>
      have hstep : settleStep (db, acc) b
          = (saveUser db { u with balance := u.balance - b.amount },
             acc ++ [b]) := by
        unfold settleStep
        rw [hu]
      rw [hstep, ih _ _ ?_]
      · simp [List.map_append]
        ring
      · intro q hq
        rw [isSome_findUser_saveUser]
        exact hall q (List.mem_cons_of_mem _ hq)

/-- Claim C1 counterexample: a ledger holding 10 for `u1` and 5 for
`u2`, with only `u1` present in the user table. Settlement creates
stake rows summing to 10 while 15 was drained from the ledger, debits
`u1`, clears the whole ledger, and does not abort: `u2`'s entry is
silently dropped (the `if (!user) continue` path) while the rest is
settled. -/
theorem settlement_drops_missing_user_cex :
    ((finalizeBets
        ⟨[("u1", ⟨10, FighterColor.red⟩), ("u2", ⟨5, FighterColor.blue⟩)],
          10, 5⟩
        [⟨"u1", 100, 0, 0, 0, 0⟩]).2.1.map (fun b => b.amount)).sum = 10
    ∧ entriesSum
        ⟨[("u1", ⟨10, FighterColor.red⟩), ("u2", ⟨5, FighterColor.blue⟩)],
          10, 5⟩ = 15
    ∧ (finalizeBets
        ⟨[("u1", ⟨10, FighterColor.red⟩), ("u2", ⟨5, FighterColor.blue⟩)],
          10, 5⟩
        [⟨"u1", 100, 0, 0, 0, 0⟩]).2.2 = LedgerState.empty
    ∧ findUser (finalizeBets
        ⟨[("u1", ⟨10, FighterColor.red⟩), ("u2", ⟨5, FighterColor.blue⟩)],
          10, 5⟩
        [⟨"u1", 100, 0, 0, 0, 0⟩]).1 "u1" = some ⟨"u1", 90, 0, 0, 0, 0⟩ := by
  have hs12 : ("u1" == "u2") = false := rfl
  have hs11 : ("u1" == "u1") = true := rfl
  have hs1e : ("u1" = "u1") = True := by simp
  refine ⟨?_, ?_, ?_, ?_⟩
  · norm_num [finalizeBets, settleStep, findUser, saveUser, List.find?,
      entriesSum, hs12, hs11]
  · norm_num [entriesSum]
  · rfl
  · norm_num [finalizeBets, settleStep, findUser, saveUser, List.find?,
      User.mk.injEq, hs12, hs11]

/-- Claim C1 (amended): provided every ledger entry's user exists in the
user table, settlement conserves value across the ephemeral→durable
boundary — the durable `Stake` rows it creates sum to exactly the amount
drained from the ledger — the ledger ends empty, and (given distinct
ledger keys) each settled user is debited by exactly their entry's
amount. An entry whose user is missing is instead skipped while its
ledger key is still cleared and the remaining entries settle, so the
all-or-nothing part of the claim fails (`settlement_drops_missing_user_cex`). -/
theorem settlement_conservation (ledger : LedgerState) (db : List User)
    (hnd : GoodKeys ledger)
    (hall : ∀ p ∈ ledger.entries, (findUser db p.1).isSome) :
    ((finalizeBets ledger db).2.1.map (fun b => b.amount)).sum
        = entriesSum ledger
    ∧ (finalizeBets ledger db).2.2 = LedgerState.empty
    ∧ ∀ p ∈ ledger.entries, ∀ u, findUser db p.1 = some u →
        findUser (finalizeBets ledger db).1 p.1
          = some { u with balance := u.balance - p.2.amount } := by
  refine ⟨?_, rfl, ?_⟩
  · have h := settle_fold_sum
      (ledger.entries.map (fun p =>
        ({ userId := p.1, amount := p.2.amount, fighterColor := p.2.color } : Bet)))
      db []
      (by
        intro q hq
        obtain ⟨p, hp, hpq⟩ := List.mem_map.mp hq
        rw [← hpq]
        exact hall p hp)
    simp only [finalizeBets]
    rw [h]
    simp [entriesSum, List.map_map]
    rfl
  · intro p hp u hu
    have hbet : Bet.mk p.1 p.2.amount p.2.color
        ∈ ledger.entries.map (fun p => Bet.mk p.1 p.2.amount p.2.color) :=
      List.mem_map_of_mem _ hp
    have hndb : ((ledger.entries.map
        (fun p => Bet.mk p.1 p.2.amount p.2.color)).map
        (fun b => b.userId)).Nodup := by
      rw [List.map_map]
      exact hnd
    have honce := foldl_payoutStep_once
      (fun bet u => { u with balance := u.balance - bet.amount })
      (fun _ _ => rfl)
      (ledger.entries.map (fun p => Bet.mk p.1 p.2.amount p.2.color))
      db (Bet.mk p.1 p.2.amount p.2.color)
      u hndb hbet hu
    simp only [finalizeBets]
    rw [settle_fold_fst]
    exact honce

/-- Witness for `settlement_conservation`: both users present. -/
theorem settlement_conservation_witness :
    ((finalizeBets
        ⟨[("u1", ⟨10, FighterColor.red⟩), ("u2", ⟨5, FighterColor.blue⟩)],
          10, 5⟩
        [⟨"u1", 100, 0, 0, 0, 0⟩, ⟨"u2", 40, 0, 0, 0, 0⟩]).2.1.map
        (fun b => b.amount)).sum
      = entriesSum
          ⟨[("u1", ⟨10, FighterColor.red⟩), ("u2", ⟨5, FighterColor.blue⟩)],
            10, 5⟩ := by
  exact (settlement_conservation
    ⟨[("u1", ⟨10, FighterColor.red⟩), ("u2", ⟨5, FighterColor.blue⟩)], 10, 5⟩
    [⟨"u1", 100, 0, 0, 0, 0⟩, ⟨"u2", 40, 0, 0, 0, 0⟩]
    (by unfold GoodKeys; decide) (by decide)).1

/-! ### Service layer (`BetService.placeBet` / `cancelBet`, C10) -/

/-- The `Match` entity (`src/packages/core/src/entities/Match.ts`). -/
structure Match where
  id : String
  externalId : Option Int
  winner : Option FighterColor
  fighterBlueId : Int
  fighterRedId : Int
deriving DecidableEq, Repr

/-- The errors thrown by `BetService.placeBet` / `cancelBet`. -/
inductive BetServiceError
  | noCurrentMatch
  | betsFinalized
  | invalidAmount
  | insufficientAvailable
  | noBet
  | insufficientBet
deriving DecidableEq, Repr

/-- `BetService.placeBet`: requires a current match (the most recent
`Match` row, passed in as `currentMatch`), with no winner set; validates
the amount; checks `available = user.balance − inProgressBet ≥ amount`
against the ledger entry read just before the script; then runs the
atomic `place_bet` script. -/
def placeBet (currentMatch : Option Match) (user : User) (amount : ℚ)
    (fighterColor : FighterColor) (ledger : LedgerState) :
    Except BetServiceError LedgerState :=
  match currentMatch with
  | none => .error .noCurrentMatch
  | some m =>
    match m.winner with
    | some _ => .error .betsFinalized
    | none =>
      if !(isValidBetAmount amount) then .error .invalidAmount
      else
        let inProgressBet := (findEntry ledger user.id).elim 0
          (fun e => e.amount)
        let available := user.balance - inProgressBet
        if available < amount then .error .insufficientAvailable
        else .ok (place_bet ledger user.id amount fighterColor)

/-- `BetService.cancelBet`: validates the amount, then runs the atomic
`cancel_bet` script and translates its error tokens. The `currentMatch`
parameter mirrors the match repository that is in scope in the service —
unlike `placeBet`, the method never reads it: there is no
no-current-match check and no winner-set check. -/
def cancelBet (currentMatch : Option Match) (user : User) (amount : ℚ)
    (ledger : LedgerState) : Except BetServiceError LedgerState :=
  if !(isValidBetAmount amount) then .error .invalidAmount
  else
    match cancel_bet ledger user.id amount with
    | .error .NO_BET => .error .noBet
    | .error .INSUFFICIENT_BET => .error .insufficientBet
    | .ok s1 => .ok s1

/-- Claim C10: with a recorded active stake and a valid cancel amount
not exceeding it, `cancelBet` succeeds for every match state — the same
result for any `currentMatch`, including a match whose winner is already
set and no match row at all — whereas `placeBet` under the same ledger
fails on those match states. -/
theorem cancel_ignores_match_state (currentMatch : Option Match)
    (user : User) (amount : ℚ) (ledger : LedgerState) (e : LedgerEntry)
    (hv : isValidBetAmount amount = true)
    (he : findEntry ledger user.id = some e)
    (hle : amount ≤ e.amount) :
    (∃ s1, cancelBet currentMatch user amount ledger = .ok s1)
    ∧ (∀ cm2, cancelBet currentMatch user amount ledger
        = cancelBet cm2 user amount ledger)
    ∧ (∀ c, placeBet none user amount c ledger
        = .error BetServiceError.noCurrentMatch)
    ∧ (∀ m w c, m.winner = some w →
        placeBet (some m) user amount c ledger
          = .error BetServiceError.betsFinalized) := by
  refine ⟨?_, fun _ => rfl, fun _ => rfl, ?_⟩
  · have hok : cancel_bet ledger user.id amount
        = .ok (setTotal
            (if e.amount - amount = 0 then delEntry ledger user.id
             else setEntry ledger user.id ⟨e.amount - amount, e.color⟩)
            e.color
            (getTotal
              (if e.amount - amount = 0 then delEntry ledger user.id
               else setEntry ledger user.id ⟨e.amount - amount, e.color⟩)
              e.color + (-amount))) := by
      simp only [cancel_bet, he]
      rw [if_neg (not_lt.mpr hle)]
    refine ⟨setTotal
        (if e.amount - amount = 0 then delEntry ledger user.id
         else setEntry ledger user.id ⟨e.amount - amount, e.color⟩)
        e.color
        (getTotal
          (if e.amount - amount = 0 then delEntry ledger user.id
           else setEntry ledger user.id ⟨e.amount - amount, e.color⟩)
          e.color + (-amount)), ?_⟩
    simp only [cancelBet, hv, Bool.not_true, Bool.false_eq_true, if_false, hok]
  · intro m w c hw
    simp only [placeBet, hw]

/-- Witness for `cancel_ignores_match_state`: a full cancel of the
double of 0.05 succeeds even though the current match's winner is
already set. -/
theorem cancel_ignores_match_state_witness :
    ∃ s1, cancelBet (some ⟨"m1", none, some FighterColor.red, 1, 2⟩)
        ⟨"a", 100, 0, 0, 0, 0⟩ (3602879701896397 / 2 ^ 56)
        ⟨[("a", ⟨3602879701896397 / 2 ^ 56, FighterColor.red⟩)],
          3602879701896397 / 2 ^ 56, 0⟩
      = Except.ok s1 :=
  (cancel_ignores_match_state (some ⟨"m1", none, some FighterColor.red, 1, 2⟩)
    ⟨"a", 100, 0, 0, 0, 0⟩ (3602879701896397 / 2 ^ 56)
    ⟨[("a", ⟨3602879701896397 / 2 ^ 56, FighterColor.red⟩)],
      3602879701896397 / 2 ^ 56, 0⟩
    ⟨3602879701896397 / 2 ^ 56, FighterColor.red⟩
    (by norm_num [isValidBetAmount, jsMod, double005, double0001]) rfl
    (le_refl _)).1

/-! ### Match lifecycle (`MatchResolver.endMatch`, the auto-finalization
timer; C2 and C8) -/

/-- The fields of a Salty Boy match payload that `endMatch` reads
(`data.id` and `data.winner`). -/
structure SaltyBoyMatch where
  id : Int
  winner : Int
deriving DecidableEq, Repr

/-- A mutating call made by the lifecycle code, in program order:
setting the «latest known» external match id, persisting a match row,
running the payout engine, settling (draining) the ledger via
`finalizeBets`, or invoking the `endMatch` mutation itself. -/
inductive ServiceCall
  | setLatestMatchId (id : Int)
  | saveMatch (m : Match)
  | distributePayouts (matchId : String) (winner : FighterColor)
  | finalizeBetsCall (matchId : String)
  | endMatchCall (matchId : String) (manualWinner : Option FighterColor)
deriving DecidableEq, Repr

/-- JavaScript's `String.prototype.split("-")`, modelled on the
character list of the string. -/
def splitOnDash : List Char → List (List Char)
  | [] => [[]]
  | c :: rest =>
    let r := splitOnDash rest
    if c = '-' then [] :: r
    else
      match r with
      | [] => [[c]]
      | h :: t => (c :: h) :: t

/-- `SaltyBoyService.compareMatchHashes`: split both hashes on `-` and
compare only the first two fields (a missing field compares like
JavaScript's `undefined === undefined`). -/
def compareMatchHashes (hash1 hash2 : String) : Bool :=
  ((splitOnDash hash1.data)[0]? == (splitOnDash hash2.data)[0]?)
    && ((splitOnDash hash1.data)[1]? == (splitOnDash hash2.data)[1]?)

/-- The failure modes of `endMatch`; `typeError` is the runtime
`TypeError` thrown when a property of `null`/`undefined` is read
(`nextLatestMatch.data` when the lookup returned `null`, `data.id` in
the manual-winner fallback, `currentCrawledMatchId.toString()` when the
marker was `null`). -/
inductive EndMatchError
  | notFound
  | alreadyConcluded
  | typeError
  | crawlFailed
  | unresolvedWinner
  | corruptWinnerMapping
deriving DecidableEq, Repr

/-- `MatchResolver.getWinnerColor`: map the external winner id to the
side whose stored fighter id matches; any other id is an integrity
fault. -/
def getWinnerColor (m : Match) (winnerId : Int) :
    Except EndMatchError FighterColor :=
  if winnerId = m.fighterRedId then .ok FighterColor.red
  else if winnerId = m.fighterBlueId then .ok FighterColor.blue
  else .error .corruptWinnerMapping

/-- The shared tail of `endMatch` after winner-data resolution (source
lines 283–307): log `data.id` (a `TypeError` when `data` is `undefined`,
before anything was persisted), store the «latest known» id from the
*original* next-latest payload `d0`, resolve the winner color, set
`winner` and `externalId`, persist the match, and run the payout engine
synchronously. -/
def endMatchFinish (matchId : String) (m : Match) (d0 : SaltyBoyMatch)
    (data : Option SaltyBoyMatch) :
    List ServiceCall × Except EndMatchError Match :=
  match data with
  | none => ([], .error .typeError)
  | some d =>
    match getWinnerColor m d.winner with
    | .error err => ([.setLatestMatchId d0.id], .error err)
    | .ok winnerColor =>
      let m2 := { m with winner := some winnerColor, externalId := some d.id }
      ([.setLatestMatchId d0.id, .saveMatch m2,
        .distributePayouts matchId winnerColor], .ok m2)

/-- `MatchResolver.endMatch`, with the repository lookup and the three
Salty Boy collaborator results passed in as values: fail if the match is
missing or already concluded; accept the next-latest payload if its hash
matches, otherwise recrawl and retry; if still mismatched, fail
`unresolvedWinner` without a manual winner (after resetting the «latest
known» marker) or clear `data` with one (which then crashes in the
tail); on success run the shared tail. The collaborator results' own
internal effects are not traced — the trace records the resolver's
mutating calls. -/
def endMatch (matchId : String) (manualWinner : Option FighterColor)
    (matchRow : Option Match)
    (nextLatest : Option (SaltyBoyMatch × String))
    (currentCrawledMatchId : Option Int)
    (crawl : Option (SaltyBoyMatch × String)) :
    List ServiceCall × Except EndMatchError Match :=
  match matchRow with
  | none => ([], .error .notFound)
  | some m =>
    match m.winner with
    | some _ => ([], .error .alreadyConcluded)
    | none =>
      match nextLatest with
      | none => ([], .error .typeError)
      | some (d0, hash0) =>
        if compareMatchHashes hash0 matchId then
          endMatchFinish matchId m d0 (some d0)
        else
          match crawl with
          | none => ([], .error .crawlFailed)
          | some (d2, hash2) =>
            if compareMatchHashes hash2 matchId then
              endMatchFinish matchId m d0 (some d2)
            else
              match manualWinner with
              | none =>
                match currentCrawledMatchId with
                | none => ([], .error .typeError)
                | some cid =>
                  ([.setLatestMatchId cid], .error .unresolvedWinner)
              | some _ => endMatchFinish matchId m d0 none

lemma endMatchFinish_ok (matchId : String) (m : Match) (d0 : SaltyBoyMatch)
    (data : Option SaltyBoyMatch) (m2 : Match)
    (hok : (endMatchFinish matchId m d0 data).2 = .ok m2) :
    ∃ w, m2.winner = some w
      ∧ (endMatchFinish matchId m d0 data).1
          = [.setLatestMatchId d0.id, .saveMatch m2,
             .distributePayouts matchId w] := by
  cases data with
  | none =>
    simp only [endMatchFinish] at hok
    exact Except.noConfusion hok
  | some d =>
    simp only [endMatchFinish] at hok ⊢
    cases hw : getWinnerColor m d.winner with
    | error err =>
      simp only [hw] at hok
      exact Except.noConfusion hok
    | ok w =>
      simp only [hw] at hok ⊢
      injection hok with h2
      subst h2
      exact ⟨w, rfl, rfl⟩

/-- Claim C2 counterexample: a concrete successful `endMatch` run (hash
match on the first attempt, winner resolved automatically). The call
sets the winner and persists the match, but its trace is
`[setLatestMatchId, saveMatch, distributePayouts]` — the payout engine
runs with **no** Settlement call anywhere in the operation: `endMatch`
never drains the ledger — settlement is triggered outside this mutation
(by the auto-finalization timer armed at match creation, or by the
separate admin `finalizeBets` mutation of `BetResolver`). -/
theorem endMatch_no_settlement_cex :
    (endMatch "2-1-a" none (some ⟨"2-1-a", none, none, 2, 1⟩)
        (some (⟨7, 1⟩, "2-1-b")) none none).2
      = Except.ok ⟨"2-1-a", some 7, some FighterColor.red, 2, 1⟩
    ∧ (endMatch "2-1-a" none (some ⟨"2-1-a", none, none, 2, 1⟩)
        (some (⟨7, 1⟩, "2-1-b")) none none).1
      = [ServiceCall.setLatestMatchId 7,
         ServiceCall.saveMatch ⟨"2-1-a", some 7, some FighterColor.red, 2, 1⟩,
         ServiceCall.distributePayouts "2-1-a" FighterColor.red]
    ∧ ServiceCall.finalizeBetsCall "2-1-a"
        ∉ (endMatch "2-1-a" none (some ⟨"2-1-a", none, none, 2, 1⟩)
            (some (⟨7, 1⟩, "2-1-b")) none none).1 := by
  refine ⟨rfl, rfl, ?_⟩
  intro hmem
  simp [endMatch, endMatchFinish, getWinnerColor, compareMatchHashes,
    splitOnDash] at hmem

/-- Claim C2 (amended): every successful `endMatch` call sets the
winner, persists the match, and then synchronously invokes the payout
engine before returning — in exactly that order — but it never invokes
Settlement: no `finalizeBets` call occurs anywhere in the operation, so
payouts run over whatever durable stake rows already exist. -/
theorem endMatch_payout_without_settlement (matchId : String)
    (manualWinner : Option FighterColor) (matchRow : Option Match)
    (nextLatest : Option (SaltyBoyMatch × String))
    (currentCrawledMatchId : Option Int)
    (crawl : Option (SaltyBoyMatch × String)) (m2 : Match)
    (hok : (endMatch matchId manualWinner matchRow nextLatest
        currentCrawledMatchId crawl).2 = Except.ok m2) :
    (∃ w d0id, m2.winner = some w
      ∧ (endMatch matchId manualWinner matchRow nextLatest
          currentCrawledMatchId crawl).1
        = [ServiceCall.setLatestMatchId d0id, ServiceCall.saveMatch m2,
           ServiceCall.distributePayouts matchId w])
    ∧ ∀ mid, ServiceCall.finalizeBetsCall mid
        ∉ (endMatch matchId manualWinner matchRow nextLatest
            currentCrawledMatchId crawl).1 := by
  cases matchRow with
  | none =>
    simp only [endMatch] at hok
    exact Except.noConfusion hok
  | some m =>
    cases hmw : m.winner with
    | some _ =>
      simp only [endMatch, hmw] at hok
      exact Except.noConfusion hok
    | none =>
      cases nextLatest with
      | none =>
        simp only [endMatch, hmw] at hok
        exact Except.noConfusion hok
      | some p =>
        obtain ⟨d0, hash0⟩ := p
        simp only [endMatch, hmw] at hok ⊢
        by_cases hc1 : compareMatchHashes hash0 matchId = true
        · rw [if_pos hc1] at hok ⊢
          obtain ⟨w, hw, htr⟩ := endMatchFinish_ok matchId m d0 (some d0) m2 hok
          refine ⟨⟨w, d0.id, hw, htr⟩, ?_⟩
          intro mid hmem
          rw [htr] at hmem
          simp at hmem
        · rw [if_neg hc1] at hok ⊢
          cases crawl with
          | none => exact Except.noConfusion hok
          | some q =>
            obtain ⟨d2, hash2⟩ := q
            simp only at hok ⊢
            by_cases hc2 : compareMatchHashes hash2 matchId = true
            · rw [if_pos hc2] at hok ⊢
              obtain ⟨w, hw, htr⟩ :=
                endMatchFinish_ok matchId m d0 (some d2) m2 hok
              refine ⟨⟨w, d0.id, hw, htr⟩, ?_⟩
              intro mid hmem
              rw [htr] at hmem
              simp at hmem
            · rw [if_neg hc2] at hok ⊢
              cases manualWinner with
              | none =>
                cases currentCrawledMatchId with
                | none => exact Except.noConfusion hok
                | some cid => exact Except.noConfusion hok
              | some wm =>
                simp only [endMatchFinish] at hok
                exact Except.noConfusion hok

/-- Witness for `endMatch_payout_without_settlement` at the concrete
successful run. -/
theorem endMatch_payout_without_settlement_witness :
    ServiceCall.finalizeBetsCall "2-1-a"
      ∉ (endMatch "2-1-a" none (some ⟨"2-1-a", none, none, 2, 1⟩)
          (some (⟨7, 1⟩, "2-1-b")) none none).1 :=
  (endMatch_payout_without_settlement "2-1-a" none
    (some ⟨"2-1-a", none, none, 2, 1⟩) (some (⟨7, 1⟩, "2-1-b")) none none
    ⟨"2-1-a", some 7, some FighterColor.red, 2, 1⟩ (by rfl)).2 "2-1-a"

/-! ### Auto-finalization timer (C8) -/

/-- The body of the `setTimeout` armed by
`BetService.scheduleFinalization` (invoked by `createMatch` right after
persisting the new match): it awaits `finalizeBets(matchId)` and nothing
else (errors are caught and logged, then the pending-timeout entry is
removed). -/
def finalizationTimerCallback (matchId : String) : List ServiceCall :=
  [.finalizeBetsCall matchId]

/-- Modelled from the spec: §4.7 of the spec says the fired timer
«calls `EndMatch` with no manual winner, relying on normal automatic
resolution» — the call list that behaviour would produce. -/
def specTimerCallback (matchId : String) : List ServiceCall :=
  [.endMatchCall matchId none]

/-- The state transition performed when the timer fires: `finalizeBets`
runs against the ledger and the user table; the match table is not an
input of the operation and is returned unchanged. -/
def fireFinalizationTimer (matchId : String) (ledger : LedgerState)
    (db : List User) (matchTable : List Match) :
    (List User × List Bet × LedgerState) × List Match :=
  (finalizeBets ledger db, matchTable)

/-- Claim C8 counterexample: the fired timer's only call is
`finalizeBets` — it drains the ledger without concluding the match, and
it is not the EndMatch-with-no-manual-winner call the claim describes. -/
theorem timer_no_endMatch_cex :
    finalizationTimerCallback "m1" = [ServiceCall.finalizeBetsCall "m1"]
    ∧ finalizationTimerCallback "m1" ≠ specTimerCallback "m1"
    ∧ ∀ w, ServiceCall.endMatchCall "m1" w ∉ finalizationTimerCallback "m1" := by
  refine ⟨rfl, by decide, ?_⟩
  intro w hmem
  simp [finalizationTimerCallback] at hmem

/-- Claim C8 (amended): if the auto-finalization timer armed at match
creation fires, it performs Settlement — `finalizeBets(matchId)`, which
drains the ephemeral ledger into durable stakes and debits balances —
and not `EndMatch`: no winner is resolved, the match table is untouched
(every match row, and in particular every `winner` field, is exactly as
before the firing), and the ledger is left empty. -/
theorem timer_settles_without_concluding (matchId : String)
    (ledger : LedgerState) (db : List User) (matchTable : List Match) :
    finalizationTimerCallback matchId
        = [ServiceCall.finalizeBetsCall matchId]
    ∧ (∀ w, ServiceCall.endMatchCall matchId w
        ∉ finalizationTimerCallback matchId)
    ∧ (fireFinalizationTimer matchId ledger db matchTable).1.2.2
        = LedgerState.empty
    ∧ (fireFinalizationTimer matchId ledger db matchTable).2
        = matchTable := by
  refine ⟨rfl, ?_, rfl, rfl⟩
  intro w hmem
  simp [finalizationTimerCallback] at hmem

/-- Witness for `timer_settles_without_concluding` at a concrete state:
the firing drains the ledger but the concrete match row keeps its null
winner. -/
theorem timer_settles_without_concluding_witness :
    (fireFinalizationTimer "m1" ⟨[("a", ⟨5, FighterColor.red⟩)], 5, 0⟩
        [⟨"a", 100, 0, 0, 0, 0⟩] [⟨"m1", none, none, 2, 1⟩]).1.2.2
      = LedgerState.empty
    ∧ (fireFinalizationTimer "m1" ⟨[("a", ⟨5, FighterColor.red⟩)], 5, 0⟩
        [⟨"a", 100, 0, 0, 0, 0⟩] [⟨"m1", none, none, 2, 1⟩]).2
      = [⟨"m1", none, none, 2, 1⟩] :=
  ⟨(timer_settles_without_concluding "m1"
      ⟨[("a", ⟨5, FighterColor.red⟩)], 5, 0⟩ [⟨"a", 100, 0, 0, 0, 0⟩]
      [⟨"m1", none, none, 2, 1⟩]).2.2.1,
   (timer_settles_without_concluding "m1"
      ⟨[("a", ⟨5, FighterColor.red⟩)], 5, 0⟩ [⟨"a", 100, 0, 0, 0, 0⟩]
      [⟨"m1", none, none, 2, 1⟩]).2.2.2⟩

end SaltyBets
